import Mathlib

set_option linter.unusedVariables false
set_option linter.unnecessarySeqFocus false

namespace Primecount

/-! ### 64-bit words modelled as natural numbers -/

/-- The all-ones 64-bit word `0xffffffffffffffff`. -/
def mask64 : Nat := 0xffffffffffffffff

/-- Auxiliary bit counter: number of 1 bits of `w` among bit positions `< k`. -/
def popAux (w : Nat) : Nat → Nat
  | 0 => 0
  | j+1 => popAux w j + (if w.testBit j then 1 else 0)

/-- `popcount64` from popcount.hpp: number of 1 bits of a 64-bit word. -/
def popcount64 (w : Nat) : Nat := popAux w 64

theorem popAux_eq_card (w : Nat) :
    ∀ k, popAux w k = ((Finset.range k).filter (fun j => w.testBit j = true)).card
  | 0 => rfl
  | k+1 => by
    rw [popAux, popAux_eq_card w k, Finset.range_succ, Finset.filter_insert]
    by_cases h : w.testBit k = true
    · rw [if_pos h, if_pos h, Finset.card_insert_of_not_mem (by simp)]
    · rw [if_neg h, if_neg h, Nat.add_zero]

theorem popcount64_eq_card (w : Nat) :
    popcount64 w = ((Finset.range 64).filter (fun j => w.testBit j = true)).card :=
  popAux_eq_card w 64

theorem mask64_testBit (j : Nat) : mask64.testBit j = decide (j < 64) := by
  have : mask64 = 2 ^ 64 - 1 := by norm_num [mask64]
  rw [this, Nat.testBit_two_pow_sub_one]

theorem popcount64_and_mask64 (w : Nat) : popcount64 (w &&& mask64) = popcount64 w := by
  rw [popcount64_eq_card, popcount64_eq_card]
  apply congrArg
  apply Finset.filter_congr
  intro j hjr
  rw [Finset.mem_range] at hjr
  simp [Nat.testBit_and, mask64_testBit, hjr]

/-! ### BitSieve (BitSieve.cpp): a packed bit array for prime sieving -/

/-- `ceil_div` from pmath.hpp (header not under src; modelled from the
spec's "⌈x / y⌉" usage): `(x + y - 1) / y`. -/
def ceil_div (x y : Nat) : Nat := (x + y - 1) / y

/-- Shallow embedding of the `BitSieve` class: the bit array is a list of
64-bit words together with the size (number of bit positions) fixed at
construction. -/
structure BitSieve where
  size : Nat
  words : List Nat

namespace BitSieve

/-- The BitSieve constructor: `bits_(ceil_div(size, 64))`, all words zero. -/
def make (size : Nat) : BitSieve := ⟨size, List.replicate (ceil_div size 64) 0⟩

/-- Bit test (`operator[]` of the header, modelled from the spec:
"bit i is set iff low+i is still a candidate"): bit `i % 64` of word `i / 64`. -/
def get (s : BitSieve) (i : Nat) : Bool := (s.words.getD (i / 64) 0).testBit (i % 64)

/-- The `unset_bit_[64]` table of BitSieve.cpp: `unset_bit_[j] = ~(1 << j)`
as a 64-bit word. -/
def unset_bit (j : Nat) : Nat := mask64 ^^^ (1 <<< j)

/-- `unset(i)` (header operation, modelled from the spec: clears bit i):
`bits_[i >> 6] &= unset_bit_[i & 63]`. -/
def unset (s : BitSieve) (i : Nat) : BitSieve :=
  ⟨s.size, s.words.set (i / 64) (s.words.getD (i / 64) 0 &&& unset_bit (i % 64))⟩

/-- The even/odd pre-strike pattern of `BitSieve::memset`. -/
def pattern (low : Nat) : Nat :=
  if low % 2 = 1 then 0x5555555555555555 else 0xAAAAAAAAAAAAAAAA

/-- `BitSieve::memset(low)` from BitSieve.cpp: fill every word with the
parity pattern; when `low ≤ 2`, clear the bits of word 0 below position
`2 - low` and set the bit at position `2 - low` (the bit of the value 2). -/
def memset (s : BitSieve) (low : Nat) : BitSieve :=
  let filled := List.replicate s.words.length (pattern low)
  if low ≤ 2 then
    let bit := 1 <<< (2 - low)
    ⟨s.size, filled.modifyHead (fun w => (w &&& (mask64 ^^^ (bit - 1))) ||| bit)⟩
  else ⟨s.size, filled⟩

/-- `BitSieve::count_edges(start, stop)` from BitSieve.cpp. -/
def count_edges (s : BitSieve) (start stop : Nat) : Nat :=
  let index1 := start / 64
  let index2 := stop / 64
  let mask1 := (mask64 <<< (start % 64)) % 2 ^ 64
  let mask2 := mask64 >>> (63 - stop % 64)
  if index1 = index2 then
    popcount64 (s.words.getD index1 0 &&& (mask1 &&& mask2))
  else
    popcount64 (s.words.getD index1 0 &&& mask1) +
      popcount64 (s.words.getD index2 0 &&& mask2)

/-- `BitSieve::count(start, stop)` from BitSieve.cpp: 0 if `start > stop`,
otherwise the edge-word popcounts plus full popcounts of the words in
between. -/
def count (s : BitSieve) (start stop : Nat) : Nat :=
  if start > stop then 0
  else count_edges s start stop +
    ∑ i ∈ Finset.Ico (start / 64 + 1) (stop / 64), popcount64 (s.words.getD i 0)

/-- Specification-side counting: the number of set positions of the sieve
in the inclusive range [a, b]. -/
def onesIn (s : BitSieve) (a b : Nat) : Nat :=
  ((Finset.Icc a b).filter (fun i => s.get i = true)).card

end BitSieve

end Primecount

namespace Primecount

theorem getD_replicate' {α : Type} (d a : α) {n m : Nat} (h : m < n) :
    (List.replicate n a).getD m d = a := by
  simp [List.getD_eq_getElem?_getD, List.getElem?_replicate, h]

theorem popcount64_and (w m : Nat) :
    popcount64 (w &&& m) =
      ((Finset.range 64).filter fun j => w.testBit j = true ∧ m.testBit j = true).card := by
  rw [popcount64_eq_card]
  apply congrArg
  apply Finset.filter_congr
  intro j _
  simp [Nat.testBit_and]

theorem mask1_testBit (s0 j : Nat) (hj : j < 64) :
    ((mask64 <<< s0) % 2 ^ 64).testBit j = decide (s0 ≤ j) := by
  rw [Nat.testBit_mod_two_pow, Nat.testBit_shiftLeft]
  by_cases h : s0 ≤ j
  · simp [hj, h, mask64_testBit, Nat.lt_of_le_of_lt (Nat.sub_le j s0) hj]
  · simp [hj, h]

theorem mask2_testBit (t0 j : Nat) (ht : t0 < 64) (hj : j < 64) :
    (mask64 >>> (63 - t0)).testBit j = decide (j ≤ t0) := by
  rw [Nat.testBit_shiftRight, mask64_testBit]
  by_cases h : j ≤ t0
  · simp [h]; omega
  · simp [h]; omega

theorem BitSieve.onesIn_word (s : BitSieve) (q a b : Nat) (hb : b < 64) :
    s.onesIn (64 * q + a) (64 * q + b) =
      ((Finset.range 64).filter fun j =>
        (s.words.getD q 0).testBit j = true ∧ a ≤ j ∧ j ≤ b).card := by
  rw [BitSieve.onesIn]
  have himg : (Finset.Icc (64 * q + a) (64 * q + b)).filter (fun i => s.get i = true) =
      Finset.map (addLeftEmbedding (64 * q))
        ((Finset.range 64).filter fun j =>
          (s.words.getD q 0).testBit j = true ∧ a ≤ j ∧ j ≤ b) := by
    ext n
    simp only [Finset.mem_filter, Finset.mem_Icc, Finset.mem_map, Finset.mem_range,
      addLeftEmbedding_apply]
    constructor
    · rintro ⟨⟨h1, h2⟩, h3⟩
      refine ⟨n - 64 * q, ⟨by omega, ?_, by omega, by omega⟩, by omega⟩
      have hdiv : n / 64 = q := by omega
      have hmod : n % 64 = n - 64 * q := by omega
      rw [BitSieve.get, hdiv, hmod] at h3
      exact h3
    · rintro ⟨j, ⟨hj64, hbit, hja, hjb⟩, rfl⟩
      have hdiv : (64 * q + j) / 64 = q := by omega
      have hmod : (64 * q + j) % 64 = j := by omega
      refine ⟨⟨by omega, by omega⟩, ?_⟩
      rw [BitSieve.get, hdiv, hmod]
      exact hbit
  rw [himg, Finset.card_map]

theorem BitSieve.onesIn_split (s : BitSieve) (a m b : Nat) (h1 : a ≤ m) (h2 : m < b) :
    s.onesIn a b = s.onesIn a m + s.onesIn (m + 1) b := by
  simp only [BitSieve.onesIn]
  rw [← Nat.Ico_succ_right, ← Nat.Ico_succ_right, ← Nat.Ico_succ_right]
  rw [← Finset.Ico_union_Ico_eq_Ico (by omega : a ≤ m + 1) (by omega : m + 1 ≤ b + 1)]
  rw [Finset.filter_union]
  exact Finset.card_union_of_disjoint
    (Finset.disjoint_filter_filter (Finset.Ico_disjoint_Ico_consecutive a (m + 1) (b + 1)))

end Primecount

namespace Primecount

theorem pattern_testBit (low j : Nat) (hj : j < 64) :
    (BitSieve.pattern low).testBit j = decide ((low + j) % 2 = 1) := by
  have hcases := Nat.mod_two_eq_zero_or_one low
  rcases hcases with h | h
  · have hp : BitSieve.pattern low = 0xAAAAAAAAAAAAAAAA := by
      rw [BitSieve.pattern, if_neg (by omega)]
    have hbit : ∀ j' < 64, (0xAAAAAAAAAAAAAAAA : Nat).testBit j' = decide (j' % 2 = 1) := by
      decide
    rw [hp, hbit j hj, decide_eq_decide]
    omega
  · have hp : BitSieve.pattern low = 0x5555555555555555 := by
      rw [BitSieve.pattern, if_pos h]
    have hbit : ∀ j' < 64, (0x5555555555555555 : Nat).testBit j' = decide (j' % 2 = 0) := by
      decide
    rw [hp, hbit j hj, decide_eq_decide]
    omega

theorem corrected_word_testBit : ∀ low < 3, ∀ j < 64,
    ((BitSieve.pattern low &&& (mask64 ^^^ (1 <<< (2 - low) - 1))) ||| 1 <<< (2 - low)).testBit j
      = ((decide ((low + j) % 2 = 1) && decide (low + j ≠ 1)) || decide (low + j = 2)) := by
  decide

theorem div64_lt_ceil (i size : Nat) (h : i < size) : i / 64 < ceil_div size 64 := by
  have h1 : (i + 64) / 64 ≤ (size + 63) / 64 := Nat.div_le_div_right (by omega)
  have h2 : (i + 64) / 64 = i / 64 + 1 := by omega
  rw [ceil_div]
  omega

/-- Pointwise characterization of `BitSieve::memset`. -/
theorem BitSieve.memset_get (s : BitSieve) (low i : Nat)
    (hlen : s.words.length = ceil_div s.size 64) (hi : i < s.size) :
    (s.memset low).get i
      = ((decide ((low + i) % 2 = 1) && decide (low + i ≠ 1)) || decide (low + i = 2)) := by
  have hlt : i / 64 < s.words.length := by
    rw [hlen]; exact div64_lt_ceil i s.size hi
  have hmod64 : i % 64 < 64 := Nat.mod_lt i (by omega)
  by_cases hlow : low ≤ 2
  · rw [BitSieve.memset]
    simp only [if_pos hlow]
    obtain ⟨len', hlen'⟩ : ∃ l, s.words.length = l + 1 := ⟨s.words.length - 1, by omega⟩
    rw [BitSieve.get]
    by_cases hq : i / 64 = 0
    · have hi64 : i < 64 := by omega
      have himod : i % 64 = i := by omega
      rw [hq, hlen', List.replicate_succ, List.modifyHead_cons, List.getD_cons_zero, himod]
      exact corrected_word_testBit low (by omega) i hi64
    · have hq1 : ∃ q', i / 64 = q' + 1 := ⟨i / 64 - 1, by omega⟩
      obtain ⟨q', hq'⟩ := hq1
      have hi64 : 64 ≤ i := by omega
      rw [hlen', List.replicate_succ, List.modifyHead_cons, hq', List.getD_cons_succ]
      have hq'lt : q' < len' := by omega
      rw [getD_replicate' 0 (BitSieve.pattern low) hq'lt]
      rw [pattern_testBit low (i % 64) hmod64]
      have hne1 : (low + i ≠ 1) := by omega
      have hne2 : ¬(low + i = 2) := by omega
      have hrhs : ((decide ((low + i) % 2 = 1) && decide (low + i ≠ 1)) || decide (low + i = 2))
          = decide ((low + i) % 2 = 1) := by simp [hne1, hne2]
      rw [hrhs, decide_eq_decide]
      omega
  · rw [BitSieve.memset]
    simp only [if_neg hlow]
    rw [BitSieve.get]
    simp only
    rw [getD_replicate' 0 (BitSieve.pattern low) hlt]
    rw [pattern_testBit low (i % 64) hmod64]
    have hne1 : (low + i ≠ 1) := by omega
    have hne2 : ¬(low + i = 2) := by omega
    have hrhs : ((decide ((low + i) % 2 = 1) && decide (low + i ≠ 1)) || decide (low + i = 2))
        = decide ((low + i) % 2 = 1) := by simp [hne1, hne2]
    rw [hrhs, decide_eq_decide]
    omega

end Primecount

namespace Primecount

theorem BitSieve.onesIn_pop_low (s : BitSieve) (start stop : Nat)
    (h2 : start / 64 = stop / 64) :
    s.onesIn start stop =
      popcount64 (s.words.getD (start / 64) 0 &&&
        ((mask64 <<< (start % 64)) % 2 ^ 64 &&& mask64 >>> (63 - stop % 64))) := by
  obtain ⟨q, s0, rfl, hs0⟩ : ∃ q c, start = 64 * q + c ∧ c < 64 :=
    ⟨start / 64, start % 64, by omega, by omega⟩
  obtain ⟨q2, t0, rfl, ht0⟩ : ∃ q c, stop = 64 * q + c ∧ c < 64 :=
    ⟨stop / 64, stop % 64, by omega, by omega⟩
  have hq2 : q = q2 := by omega
  subst hq2
  have e1 : (64 * q + s0) / 64 = q := by omega
  have e2 : (64 * q + s0) % 64 = s0 := by omega
  have e3 : (64 * q + t0) % 64 = t0 := by omega
  rw [e1, e2, e3, popcount64_and]
  rw [BitSieve.onesIn_word s q s0 t0 ht0]
  apply congrArg
  apply Finset.filter_congr
  intro j hj
  rw [Finset.mem_range] at hj
  rw [Nat.testBit_and, mask1_testBit _ _ hj, mask2_testBit _ _ (by omega) hj]
  simp

theorem BitSieve.onesIn_pop_high (s : BitSieve) (start : Nat) :
    s.onesIn start (64 * (start / 64) + 63) =
      popcount64 (s.words.getD (start / 64) 0 &&& ((mask64 <<< (start % 64)) % 2 ^ 64)) := by
  obtain ⟨q, s0, rfl, hs0⟩ : ∃ q c, start = 64 * q + c ∧ c < 64 :=
    ⟨start / 64, start % 64, by omega, by omega⟩
  have e1 : (64 * q + s0) / 64 = q := by omega
  have e2 : (64 * q + s0) % 64 = s0 := by omega
  rw [e1, e2, popcount64_and]
  rw [BitSieve.onesIn_word s q s0 63 (by omega)]
  apply congrArg
  apply Finset.filter_congr
  intro j hj
  rw [Finset.mem_range] at hj
  rw [mask1_testBit _ _ hj]
  simp
  intro _ h
  omega

theorem BitSieve.count_aux (s : BitSieve) :
    ∀ (k start stop : Nat), start ≤ stop → stop / 64 = start / 64 + k →
      s.count start stop = s.onesIn start stop := by
  intro k
  induction k with
  | zero =>
    intro start stop hle hdiv
    rw [BitSieve.count, if_neg (by omega)]
    simp only [BitSieve.count_edges]
    rw [if_pos (by omega : start / 64 = stop / 64)]
    rw [Finset.Ico_eq_empty (by omega), Finset.sum_empty, Nat.add_zero]
    rw [BitSieve.onesIn_pop_low s start stop (by omega)]
  | succ k ih =>
    intro start stop hle hdiv
    have hlt : start / 64 < stop / 64 := by omega
    have hstop64 : 64 * (start / 64) + 64 ≤ stop := by omega
    have hsplit := BitSieve.onesIn_split s start (64 * (start / 64) + 63) stop
      (by omega) (by omega)
    have hih := ih (64 * (start / 64) + 64) stop (by omega) (by omega)
    rw [hsplit, BitSieve.onesIn_pop_high, ← hih]
    rw [BitSieve.count, if_neg (by omega), BitSieve.count, if_neg (by omega)]
    have hidx : (64 * (start / 64) + 64) / 64 = start / 64 + 1 := by omega
    have hmod0 : (64 * (start / 64) + 64) % 64 = 0 := by omega
    simp only [BitSieve.count_edges]
    rw [if_neg (by omega : ¬ start / 64 = stop / 64), hidx, hmod0]
    have hmask10 : (mask64 <<< 0) % 2 ^ 64 = mask64 := by decide
    rw [hmask10]
    by_cases hk : start / 64 + 1 = stop / 64
    · rw [if_pos hk]
      rw [Finset.Ico_eq_empty (by omega), Finset.sum_empty, Nat.add_zero]
      rw [Finset.Ico_eq_empty (by omega), Finset.sum_empty, Nat.add_zero]
      have habs : ∀ w : Nat, w &&& (mask64 &&& mask64 >>> (63 - stop % 64))
          = w &&& mask64 >>> (63 - stop % 64) := by
        intro w
        apply Nat.eq_of_testBit_eq
        intro j
        by_cases hj : j < 64
        · simp [Nat.testBit_and, mask64_testBit, hj]
        · have hm2 : (mask64 >>> (63 - stop % 64)).testBit j = false := by
            rw [Nat.testBit_shiftRight, mask64_testBit]
            simp
            omega
          simp [Nat.testBit_and, hm2]
      rw [habs, ← hk]
    · rw [if_neg hk]
      have hico : Finset.Ico (start / 64 + 1) (stop / 64)
          = insert (start / 64 + 1) (Finset.Ico (start / 64 + 1 + 1) (stop / 64)) := by
        rw [Nat.Ico_insert_succ_left (by omega)]
      rw [hico, Finset.sum_insert (by simp)]
      rw [popcount64_and_mask64]
      omega

end Primecount

namespace Primecount

/-! ### Counter tree (tos_counters.hpp is not under src/; modelled from the
spec, §3 "Counter tree" and §4.2) -/

/-- Modelled from the spec: the segment is divided into equal blocks of
width w ≈ √S (the exact width is an implementation constant; any positive
width realizes the spec). -/
def blockWidth (S : Nat) : Nat := max 1 (Nat.sqrt S)

/-- Number of set sieve bits in the half-open position range [a, a+len). -/
def bitsCount (sieve : BitSieve) (a : Nat) : Nat → Nat
  | 0 => 0
  | len+1 => bitsCount sieve a len + (if sieve.get (a + len) then 1 else 0)

/-- Modelled from the spec: `cnt_finit` rebuilds the counter tree from the
current sieve state; level-0 holds the per-block 1-counts. -/
def cnt_finit (sieve : BitSieve) (S : Nat) : List Int :=
  (List.range (ceil_div S (blockWidth S))).map
    (fun b => (bitsCount sieve (b * blockWidth S)
      (min ((b + 1) * blockWidth S) S - b * blockWidth S) : Int))

/-- Modelled from the spec: `cnt_update(counters, i, S)` decrements the
counter of the block containing position i. -/
def cnt_update (counters : List Int) (i : Nat) (S : Nat) : List Int :=
  counters.set (i / blockWidth S) (counters.getD (i / blockWidth S) 0 - 1)

/-- Modelled from the spec: `cnt_query(counters, i)` = sum of the counters
of all full blocks preceding the block of i, plus the popcount of the bits
of that block up to position i. (The C++ structure answers this from its
counters alone; the spec describes the blocks' bits, which the model reads
from the sieve.) -/
def cnt_query (sieve : BitSieve) (counters : List Int) (i : Nat) (S : Nat) : Int :=
  ((List.range (i / blockWidth S)).map (fun b => counters.getD b 0)).sum
    + (bitsCount sieve ((i / blockWidth S) * blockWidth S) (i % blockWidth S + 1) : Int)

theorem bitsCount_eq_card (sieve : BitSieve) (a : Nat) :
    ∀ len, bitsCount sieve a len
      = ((Finset.Ico a (a + len)).filter (fun j => sieve.get j = true)).card
  | 0 => by simp [bitsCount]
  | len+1 => by
    rw [bitsCount, bitsCount_eq_card sieve a len]
    rw [show a + (len + 1) = (a + len) + 1 from rfl]
    rw [Nat.Ico_succ_right_eq_insert_Ico (by omega), Finset.filter_insert]
    by_cases h : sieve.get (a + len) = true
    · rw [if_pos h, if_pos h, Finset.card_insert_of_not_mem (by simp)]
    · rw [if_neg h, if_neg h]
      simp [h]

theorem bitsCount_congr (s1 s2 : BitSieve) (a len : Nat)
    (h : ∀ j, a ≤ j → j < a + len → s1.get j = s2.get j) :
    bitsCount s1 a len = bitsCount s2 a len := by
  induction len with
  | zero => rfl
  | succ len ih =>
    rw [bitsCount, bitsCount, ih (fun j hj1 hj2 => h j hj1 (by omega)),
      h (a + len) (by omega) (by omega)]

/-- Pointwise description of `BitSieve.unset`. -/
theorem BitSieve.unset_get (s : BitSieve) (i j : Nat) :
    (s.unset i).get j = (decide (j ≠ i) && s.get j) := by
  simp only [BitSieve.get, BitSieve.unset, List.getD_eq_getElem?_getD]
  by_cases hw : i / 64 < s.words.length
  · by_cases hij : j / 64 = i / 64
    · rw [hij, List.getElem?_set_self hw]
      simp only [Option.getD_some]
      rw [Nat.testBit_and, BitSieve.unset_bit, Nat.testBit_xor, mask64_testBit]
      have hj64 : j % 64 < 64 := by omega
      by_cases heq : j % 64 = i % 64
      · have hji : j = i := by omega
        subst hji
        have hbit : (1 <<< (j % 64)).testBit (j % 64) = true := by
          rw [Nat.testBit_shiftLeft]
          simp
        rw [heq, hbit]
        simp [hj64]
      · have hji : j ≠ i := by omega
        have hbit : (1 <<< (i % 64)).testBit (j % 64) = false := by
          rw [Nat.testBit_shiftLeft]
          rcases Nat.lt_or_ge (j % 64) (i % 64) with hlt | hge
          · simp [Nat.not_le.mpr hlt]
          · have h1 : (1 : Nat).testBit (j % 64 - i % 64) = false := by
              rw [Nat.testBit_to_div_mod]
              have hd : (1 : Nat) / 2 ^ (j % 64 - i % 64) = 0 :=
                Nat.div_eq_of_lt (by
                  calc (1:Nat) < 2 ^ 1 := by norm_num
                  _ ≤ 2 ^ (j % 64 - i % 64) := Nat.pow_le_pow_right (by norm_num) (by omega))
              simp [hd]
            simp [h1]
        rw [hbit]
        simp [hji, hj64]
    · rw [List.getElem?_set_ne (fun h => hij h.symm)]
      have hji : j ≠ i := fun h => hij (by rw [h])
      simp [hji]
  · have hset : s.words.set (i / 64) (s.words.getD (i / 64) 0 &&& BitSieve.unset_bit (i % 64))
        = s.words := List.set_eq_of_length_le (by omega)
    simp only [List.getD_eq_getElem?_getD] at hset
    rw [hset]
    by_cases hji : j = i
    · subst hji
      have hz : s.words[j / 64]? = none := List.getElem?_eq_none (by omega)
      rw [hz]
      simp
    · simp [hji]

end Primecount

namespace Primecount

theorem blockWidth_pos (S : Nat) : 0 < blockWidth S := by
  rw [blockWidth]; omega

theorem length_cnt_finit (sieve : BitSieve) (S : Nat) :
    (cnt_finit sieve S).length = ceil_div S (blockWidth S) := by
  rw [cnt_finit, List.length_map, List.length_range]

theorem getD_cnt_finit (sieve : BitSieve) (S b : Nat)
    (hb : b < ceil_div S (blockWidth S)) :
    (cnt_finit sieve S).getD b 0 = (bitsCount sieve (b * blockWidth S)
      (min ((b + 1) * blockWidth S) S - b * blockWidth S) : Int) := by
  rw [cnt_finit]
  rw [List.getD_eq_getElem?_getD, List.getElem?_map, List.getElem?_range (by omega)]
  rfl

theorem div_blockWidth_lt (S i : Nat) (h : i < S) :
    i / blockWidth S < ceil_div S (blockWidth S) := by
  have hW := blockWidth_pos S
  set W := blockWidth S with hWdef
  rw [ceil_div]
  rw [Nat.div_lt_iff_lt_mul hW, Nat.mul_comm]
  have h1 := Nat.div_add_mod (S + W - 1) W
  have h2 : (S + W - 1) % W < W := Nat.mod_lt _ hW
  omega

theorem div_mul_le_and_lt (W i : Nat) (hW : 0 < W) :
    i / W * W ≤ i ∧ i < i / W * W + W := by
  have h1 := Nat.div_add_mod i W
  have h2 : i % W < W := Nat.mod_lt _ hW
  have h3 : i / W * W = W * (i / W) := Nat.mul_comm _ _
  constructor <;> omega

theorem block_of_mem (W b j S : Nat) (hW : 0 < W)
    (hj1 : b * W ≤ j) (hj2 : j < b * W + (min ((b + 1) * W) S - b * W)) :
    j / W = b := by
  have hexp : (b + 1) * W = b * W + W := by ring
  apply Nat.div_eq_of_lt_le hj1
  show j < (b + 1) * W
  omega

/-- Rebuilding the counters after a guarded unset agrees with decrementing
the counter of the touched block. -/
theorem cnt_finit_unset (sieve : BitSieve) (S i : Nat) (hi : i < S)
    (hget : sieve.get i = true) :
    cnt_finit (sieve.unset i) S = cnt_update (cnt_finit sieve S) i S := by
  have hW := blockWidth_pos S
  apply List.ext_getElem?
  intro b
  have hlen1 : (cnt_finit (sieve.unset i) S).length = ceil_div S (blockWidth S) := length_cnt_finit _ _
  have hlen2 : (cnt_finit sieve S).length = ceil_div S (blockWidth S) := length_cnt_finit _ _
  by_cases hb : b < ceil_div S (blockWidth S)
  · have hbB : i / blockWidth S < ceil_div S (blockWidth S) := div_blockWidth_lt S i hi
    have hgd1 : (cnt_finit (sieve.unset i) S)[b]? = some ((cnt_finit (sieve.unset i) S).getD b 0) := by
      rw [List.getD_eq_getElem?_getD]
      cases hx : (cnt_finit (sieve.unset i) S)[b]? with
      | none => rw [List.getElem?_eq_none_iff] at hx; omega
      | some v => rfl
    by_cases hbi : b = i / blockWidth S
    · subst hbi
      rw [hgd1]
      rw [cnt_update]
      rw [List.getElem?_set_self (by omega)]
      congr 1
      rw [getD_cnt_finit _ _ _ hb, getD_cnt_finit _ _ _ hb]
      obtain ⟨hblock, hblock2⟩ := div_mul_le_and_lt (blockWidth S) i hW
      rw [bitsCount_eq_card, bitsCount_eq_card]
      have hexp : (i / blockWidth S + 1) * blockWidth S = i / blockWidth S * blockWidth S + blockWidth S := by ring
      have hrange : i / blockWidth S * blockWidth S +
          (min ((i / blockWidth S + 1) * blockWidth S) S - i / blockWidth S * blockWidth S)
          = min ((i / blockWidth S + 1) * blockWidth S) S := by
        omega
      rw [hrange]
      have hmem : i ∈ (Finset.Ico (i / blockWidth S * blockWidth S)
          (min ((i / blockWidth S + 1) * blockWidth S) S)).filter
          (fun j => sieve.get j = true) := by
        rw [Finset.mem_filter, Finset.mem_Ico]
        exact ⟨⟨hblock, by omega⟩, hget⟩
      have hfil : (Finset.Ico (i / blockWidth S * blockWidth S)
            (min ((i / blockWidth S + 1) * blockWidth S) S)).filter
            (fun j => (sieve.unset i).get j = true)
          = ((Finset.Ico (i / blockWidth S * blockWidth S)
            (min ((i / blockWidth S + 1) * blockWidth S) S)).filter
            (fun j => sieve.get j = true)).erase i := by
        ext j
        rw [Finset.mem_erase, Finset.mem_filter, Finset.mem_filter]
        rw [BitSieve.unset_get]
        constructor
        · rintro ⟨hj1, hj2⟩
          rw [Bool.and_eq_true, decide_eq_true_eq] at hj2
          exact ⟨hj2.1, hj1, hj2.2⟩
        · rintro ⟨hj1, hj2, hj3⟩
          refine ⟨hj2, ?_⟩
          rw [Bool.and_eq_true, decide_eq_true_eq]
          exact ⟨hj1, hj3⟩
      rw [hfil, Finset.card_erase_of_mem hmem]
      have hpos : 0 < ((Finset.Ico (i / blockWidth S * blockWidth S)
          (min ((i / blockWidth S + 1) * blockWidth S) S)).filter
          (fun j => sieve.get j = true)).card := Finset.card_pos.mpr ⟨i, hmem⟩
      push_cast [Nat.cast_sub (by omega : 1 ≤ ((Finset.Ico (i / blockWidth S * blockWidth S) (min ((i / blockWidth S + 1) * blockWidth S) S)).filter (fun j => sieve.get j = true)).card)]
      ring
    · rw [hgd1]
      rw [cnt_update, List.getElem?_set_ne (fun h => hbi h.symm)]
      have hgd2 : (cnt_finit sieve S)[b]? = some ((cnt_finit sieve S).getD b 0) := by
        rw [List.getD_eq_getElem?_getD]
        cases hx : (cnt_finit sieve S)[b]? with
        | none => rw [List.getElem?_eq_none_iff] at hx; omega
        | some v => rfl
      rw [hgd2]
      congr 1
      rw [getD_cnt_finit _ _ _ hb, getD_cnt_finit _ _ _ hb]
      congr 1
      apply bitsCount_congr
      intro j hj1 hj2
      rw [BitSieve.unset_get]
      have hji : j ≠ i := by
        intro h
        have hjb : j / blockWidth S = b := block_of_mem (blockWidth S) b j S hW hj1 hj2
        exact hbi (by rw [← hjb, h])
      simp [hji]
  · rw [List.getElem?_eq_none (by omega), List.getElem?_eq_none (by
      rw [cnt_update, List.length_set]; omega)]

end Primecount

namespace Primecount

theorem blocks_sum_eq (sieve : BitSieve) (S : Nat) :
    ∀ B, B * blockWidth S ≤ S →
      ((List.range B).map (fun b => (cnt_finit sieve S).getD b 0)).sum
        = (((Finset.Ico 0 (B * blockWidth S)).filter (fun j => sieve.get j = true)).card : Int) := by
  have hW := blockWidth_pos S
  intro B
  induction B with
  | zero => simp
  | succ B ih =>
    intro hB
    have hexp : (B + 1) * blockWidth S = B * blockWidth S + blockWidth S := by ring
    have hBS : B * blockWidth S ≤ S := by omega
    rw [List.range_succ, List.map_append, List.sum_append, ih hBS]
    simp only [List.map_cons, List.map_nil, List.sum_cons, List.sum_nil]
    have hbceil : B < ceil_div S (blockWidth S) := by
      by_cases hBz : B * blockWidth S < S
      · have := div_blockWidth_lt S (B * blockWidth S) hBz
        rwa [Nat.mul_div_cancel B hW] at this
      · exfalso; omega
    rw [getD_cnt_finit _ _ _ hbceil]
    have hmin : min ((B + 1) * blockWidth S) S = (B + 1) * blockWidth S := by omega
    rw [hmin, bitsCount_eq_card]
    have harg : B * blockWidth S + ((B + 1) * blockWidth S - B * blockWidth S)
        = (B + 1) * blockWidth S := by omega
    rw [harg]
    have hsplit : Finset.Ico 0 ((B + 1) * blockWidth S)
        = Finset.Ico 0 (B * blockWidth S) ∪ Finset.Ico (B * blockWidth S) ((B + 1) * blockWidth S) :=
      (Finset.Ico_union_Ico_eq_Ico (by omega) (by omega)).symm
    rw [hsplit, Finset.filter_union, Finset.card_union_of_disjoint
      (Finset.disjoint_filter_filter (Finset.Ico_disjoint_Ico_consecutive _ _ _))]
    push_cast
    ring

theorem cnt_query_eq_onesIn (sieve : BitSieve) (S i : Nat) (hi : i < S) :
    cnt_query sieve (cnt_finit sieve S) i S = (sieve.onesIn 0 i : Int) := by
  have hW := blockWidth_pos S
  rw [cnt_query]
  obtain ⟨hblock, hblock2⟩ := div_mul_le_and_lt (blockWidth S) i hW
  have hBle : i / blockWidth S * blockWidth S ≤ S := by omega
  rw [blocks_sum_eq sieve S (i / blockWidth S) hBle]
  rw [bitsCount_eq_card]
  have hmodeq : i / blockWidth S * blockWidth S + (i % blockWidth S + 1) = i + 1 := by
    have := Nat.div_add_mod i (blockWidth S)
    have h3 : i / blockWidth S * blockWidth S = blockWidth S * (i / blockWidth S) :=
      Nat.mul_comm _ _
    omega
  rw [hmodeq]
  rw [BitSieve.onesIn, ← Nat.Ico_succ_right]
  have hsplit : Finset.Ico 0 (i + 1)
      = Finset.Ico 0 (i / blockWidth S * blockWidth S)
        ∪ Finset.Ico (i / blockWidth S * blockWidth S) (i + 1) :=
    (Finset.Ico_union_Ico_eq_Ico (by omega) (by omega)).symm
  rw [hsplit, Finset.filter_union, Finset.card_union_of_disjoint
    (Finset.disjoint_filter_filter (Finset.Ico_disjoint_Ico_consecutive _ _ _))]
  push_cast
  ring

/-- The paired unset/update discipline of `cross_off`, applied to an
arbitrary list of positions: each position whose sieve bit is set is unset
while the counter of its block is decremented; positions with a clear bit
are skipped. -/
def applyOps (S : Nat) : List Nat → BitSieve → List Int → BitSieve × List Int
  | [], sieve, counters => (sieve, counters)
  | i :: rest, sieve, counters =>
    if sieve.get i then applyOps S rest (sieve.unset i) (cnt_update counters i S)
    else applyOps S rest sieve counters

theorem applyOps_invariant (S : Nat) : ∀ (ops : List Nat) (sieve : BitSieve),
    (∀ k ∈ ops, k < S) →
    applyOps S ops sieve (cnt_finit sieve S)
      = ((applyOps S ops sieve (cnt_finit sieve S)).1,
         cnt_finit (applyOps S ops sieve (cnt_finit sieve S)).1 S) := by
  intro ops
  induction ops with
  | nil => intro sieve _; rfl
  | cons i rest ih =>
    intro sieve hops
    simp only [applyOps]
    by_cases hget : sieve.get i = true
    · rw [if_pos hget]
      rw [← cnt_finit_unset sieve S i (hops i (by simp)) hget]
      exact ih (sieve.unset i) (fun k hk => hops k (by simp [hk]))
    · rw [if_neg hget]
      exact ih sieve (fun k hk => hops k (by simp [hk]))

end Primecount

namespace Primecount

/-- `init_next_multiples`: the value stored for one prime, translated from
pi_lmo_parallel3.cpp lines 45-47: first multiple ≥ low, bumped by the prime
when that multiple is even. -/
def next_multiple (prime low : Nat) : Nat :=
  let nm := ((low + prime - 1) / prime) * prime
  nm + prime * (1 - nm % 2)

/-- `init_next_multiples(next, primes, size, low)` from pi_lmo_parallel3.cpp:
`next[0] = 0` and `next[b] = next_multiple primes[b] low` for `1 ≤ b < size`. -/
def init_next_multiples (primes : List Nat) (size low : Nat) : List Nat :=
  (List.range size).map (fun b => if b = 0 then 0 else next_multiple (primes.getD b 0) low)

/-- The property claimed of the stored wheel entries: the least odd multiple
of p that is at least low. -/
def IsLeastOddMultiple (p low v : Nat) : Prop :=
  v % 2 = 1 ∧ p ∣ v ∧ low ≤ v ∧ ∀ u, u % 2 = 1 → p ∣ u → low ≤ u → v ≤ u

theorem ceil_mult_ge (p low : Nat) (hp : 0 < p) : low ≤ (low + p - 1) / p * p := by
  have h1 := Nat.div_add_mod (low + p - 1) p
  have h2 : (low + p - 1) % p < p := Nat.mod_lt _ hp
  have h3 : (low + p - 1) / p * p = p * ((low + p - 1) / p) := Nat.mul_comm _ _
  omega

theorem ceil_mult_le (p low : Nat) (hp : 0 < p) : (low + p - 1) / p * p ≤ low + p - 1 := by
  have h3 : (low + p - 1) / p * p = p * ((low + p - 1) / p) := Nat.mul_comm _ _
  have := Nat.div_mul_le_self (low + p - 1) p
  omega

theorem ceil_mult_least (p low m : Nat) (hp : 0 < p) (hdvd : p ∣ m) (hm : low ≤ m) :
    (low + p - 1) / p * p ≤ m := by
  obtain ⟨k, rfl⟩ := hdvd
  have hq : (low + p - 1) / p ≤ k := by
    rw [Nat.div_le_iff_le_mul_add_pred hp]
    omega
  calc (low + p - 1) / p * p ≤ k * p := Nat.mul_le_mul_right p hq
  _ = p * k := Nat.mul_comm _ _

theorem mult_gap (p q a : Nat) (h : p * q < p * a) : p * q + p ≤ p * a := by
  have haq : q + 1 ≤ a := by
    by_contra hcon
    push_neg at hcon
    have : p * a ≤ p * q := Nat.mul_le_mul_left p (by omega)
    omega
  have h2 : p * (q + 1) ≤ p * a := Nat.mul_le_mul_left p haq
  have hexp : p * (q + 1) = p * q + p := by ring
  omega

theorem next_multiple_least (p low : Nat) (hp : p % 2 = 1) :
    IsLeastOddMultiple p low (next_multiple p low) := by
  have hpos : 0 < p := by omega
  rw [next_multiple]
  have hge := ceil_mult_ge p low hpos
  have hdvd : p ∣ (low + p - 1) / p * p := Dvd.intro_left _ rfl
  rcases Nat.mod_two_eq_zero_or_one ((low + p - 1) / p * p) with heven | hodd
  · rw [heven]
    simp only [Nat.sub_zero, Nat.mul_one]
    refine ⟨by omega, Nat.dvd_add hdvd dvd_rfl, by omega, ?_⟩
    intro u hu1 hu2 hu3
    have h1 := ceil_mult_least p low u hpos hu2 hu3
    have hne : u ≠ (low + p - 1) / p * p := by
      intro h; rw [h] at hu1; omega
    obtain ⟨a, rfl⟩ := hu2
    obtain ⟨q, hq⟩ : ∃ q, (low + p - 1) / p * p = p * q := ⟨(low + p - 1) / p, Nat.mul_comm _ _⟩
    rw [hq] at h1 hne ⊢
    have := mult_gap p q a (by omega)
    omega
  · rw [hodd]
    simp only [Nat.sub_self, Nat.mul_zero, Nat.add_zero]
    refine ⟨hodd, hdvd, hge, ?_⟩
    intro u hu1 hu2 hu3
    exact ceil_mult_least p low u hpos hu2 hu3

end Primecount

namespace Primecount

/-- `cross_off(prime, low, high, next_multiple, sieve, counters)` from
pi_lmo_parallel3.cpp lines 52-67, as a fuel recursion on the while loop:
walk k from the starting multiple in steps of 2·prime below high; unset each
set bit and update the counter tree; return the final state and k. -/
def cross_off (prime low high S : Nat) :
    Nat → Nat → BitSieve → List Int → BitSieve × List Int × Nat
  | 0, k, sieve, counters => (sieve, counters, k)
  | fuel+1, k, sieve, counters =>
    if k < high then
      if sieve.get (k - low) then
        cross_off prime low high S fuel (k + 2 * prime) (sieve.unset (k - low))
          (cnt_update counters (k - low) S)
      else
        cross_off prime low high S fuel (k + 2 * prime) sieve counters
    else (sieve, counters, k)

theorem cross_off_only_odd_multiples (p low high S : Nat) (hp : p % 2 = 1) :
    ∀ (fuel k : Nat) (sieve : BitSieve) (counters : List Int),
      p ∣ k → k % 2 = 1 → low ≤ k →
      ∀ j, (cross_off p low high S fuel k sieve counters).1.get j ≠ sieve.get j →
        ∃ m, p ∣ m ∧ m % 2 = 1 ∧ low ≤ m ∧ m < high ∧ j = m - low := by
  intro fuel
  induction fuel with
  | zero =>
    intro k sieve counters _ _ _ j hj
    exact absurd rfl hj
  | succ fuel ih =>
    intro k sieve counters hdvd hodd hlow j hj
    rw [cross_off] at hj
    by_cases hk : k < high
    · rw [if_pos hk] at hj
      have hstep : p ∣ k + 2 * p := Nat.dvd_add hdvd (Dvd.intro_left 2 rfl)
      have hodd' : (k + 2 * p) % 2 = 1 := by omega
      have hlow' : low ≤ k + 2 * p := by omega
      by_cases hget : sieve.get (k - low) = true
      · rw [if_pos hget] at hj
        by_cases hj2 : (cross_off p low high S fuel (k + 2 * p) (sieve.unset (k - low))
            (cnt_update counters (k - low) S)).1.get j = (sieve.unset (k - low)).get j
        · have hj3 : (sieve.unset (k - low)).get j ≠ sieve.get j := by
            rw [← hj2]; exact hj
          rw [BitSieve.unset_get] at hj3
          by_cases hjk : j = k - low
          · exact ⟨k, hdvd, hodd, hlow, hk, hjk⟩
          · exfalso
            apply hj3
            simp [hjk]
        · exact ih (k + 2 * p) (sieve.unset (k - low)) (cnt_update counters (k - low) S)
            hstep hodd' hlow' j hj2
      · rw [if_neg hget] at hj
        exact ih (k + 2 * p) sieve counters hstep hodd' hlow' j hj
    · rw [if_neg hk] at hj
      exact absurd rfl hj

end Primecount

namespace Primecount

/-- C5 (counterexample): the claim "after memset(low) bit i is set iff low+i
is odd, with a correction only when low = 0" fails at low = 1: the bit at
position 1 (the value 2, which is even) is set. -/
theorem bitsieve_memset_parity_counterexample :
    ((BitSieve.make 64).memset 1).get 1 = true ∧ ¬((1 + 1) % 2 = 1) := by
  constructor
  · decide
  · decide

/-- C5 (amended): after `memset(low)` on a sieve whose word vector has the
constructed length, bit i (i < size) is set iff low+i is odd and ≠ 1, or
low+i = 2; i.e. the value-0/1/2 correction applies whenever low ≤ 2, not
only when low = 0. -/
theorem bitsieve_memset_parity (s : BitSieve) (low i : Nat)
    (hlen : s.words.length = ceil_div s.size 64) (hi : i < s.size) :
    (s.memset low).get i
      = ((decide ((low + i) % 2 = 1) && decide (low + i ≠ 1)) || decide (low + i = 2)) :=
  BitSieve.memset_get s low i hlen hi

theorem bitsieve_memset_parity_witness :
    ((BitSieve.make 64).words.length = ceil_div (BitSieve.make 64).size 64 ∧
      3 < (BitSieve.make 64).size) ∧
    ((BitSieve.make 64).memset 5).get 3
      = ((decide ((5 + 3) % 2 = 1) && decide (5 + 3 ≠ 1)) || decide (5 + 3 = 2)) :=
  ⟨⟨by decide, by decide⟩, bitsieve_memset_parity (BitSieve.make 64) 5 3 (by decide) (by decide)⟩

/-- C6: for stop < size, `BitSieve::count(start, stop)` returns the number
of 1 bits at positions in the inclusive range [start, stop]; in particular
it is 0 when start > stop. -/
theorem bitsieve_count_range (s : BitSieve) (start stop : Nat) (h : stop < s.size) :
    s.count start stop = s.onesIn start stop := by
  by_cases hss : start > stop
  · rw [BitSieve.count, if_pos hss, BitSieve.onesIn,
      Finset.Icc_eq_empty (by omega), Finset.filter_empty, Finset.card_empty]
  · exact BitSieve.count_aux s (stop / 64 - start / 64) start stop (by omega)
      (by
        have : start / 64 ≤ stop / 64 := Nat.div_le_div_right (by omega)
        omega)

theorem bitsieve_count_range_witness :
    (129 < (BitSieve.mk 130 [3, 18446744073709551615, 5]).size) ∧
    (BitSieve.mk 130 [3, 18446744073709551615, 5]).count 3 129
      = (BitSieve.mk 130 [3, 18446744073709551615, 5]).onesIn 3 129 :=
  ⟨by decide, bitsieve_count_range (BitSieve.mk 130 [3, 18446744073709551615, 5]) 3 129 (by decide)⟩

/-- C3: after `cnt_finit` initializes the counter tree from the bit sieve
and after any sequence of guarded paired `unset`/`cnt_update` operations (as
performed by `cross_off`), `cnt_query(counters, i)` equals the popcount of
the current sieve bits at positions 0..i, for every i in the segment. -/
theorem counter_tree_rank_invariant (S : Nat) (sieve : BitSieve) (ops : List Nat) (i : Nat)
    (hops : ∀ k ∈ ops, k < S) (hi : i < S) :
    cnt_query (applyOps S ops sieve (cnt_finit sieve S)).1
        (applyOps S ops sieve (cnt_finit sieve S)).2 i S
      = ((applyOps S ops sieve (cnt_finit sieve S)).1.onesIn 0 i : Int) := by
  have hinv := applyOps_invariant S ops sieve hops
  have h2 : (applyOps S ops sieve (cnt_finit sieve S)).2
      = cnt_finit (applyOps S ops sieve (cnt_finit sieve S)).1 S := by
    conv_lhs => rw [hinv]
  rw [h2]
  exact cnt_query_eq_onesIn _ S i hi

theorem counter_tree_rank_invariant_witness :
    ((∀ k ∈ [2, 5, 5, 9], k < 10) ∧ 7 < 10) ∧
    cnt_query (applyOps 10 [2, 5, 5, 9] ((BitSieve.make 10).memset 0)
        (cnt_finit ((BitSieve.make 10).memset 0) 10)).1
        (applyOps 10 [2, 5, 5, 9] ((BitSieve.make 10).memset 0)
        (cnt_finit ((BitSieve.make 10).memset 0) 10)).2 7 10
      = ((applyOps 10 [2, 5, 5, 9] ((BitSieve.make 10).memset 0)
        (cnt_finit ((BitSieve.make 10).memset 0) 10)).1.onesIn 0 7 : Int) :=
  ⟨⟨by decide, by decide⟩,
    counter_tree_rank_invariant 10 ((BitSieve.make 10).memset 0) [2, 5, 5, 9] 7
      (by decide) (by decide)⟩

/-- C7 (counterexample): at b = 1 the prime is 2 and the stored value
`next[1]` (here 4, for low = 1) is even, so it is not the first odd multiple
of primes[1] ≥ low claimed for every b ≥ 1. -/
theorem wheel_first_odd_multiple_counterexample :
    ¬ IsLeastOddMultiple 2 1 ((init_next_multiples [0, 2, 3, 5] 4 1).getD 1 0) := by
  intro h
  have hv : (init_next_multiples [0, 2, 3, 5] 4 1).getD 1 0 = 4 := by decide
  rw [hv] at h
  exact absurd h.1 (by decide)

/-- C7 (amended): for every index b ≥ 1 whose prime is odd,
`init_next_multiples` stores at b the first odd multiple of primes[b] that
is ≥ low, and `cross_off`, started from that value and advancing by
2·primes[b], changes only sieve positions of odd multiples of primes[b]
inside [low, high). -/
theorem wheel_first_odd_multiple (primes : List Nat) (size low b p high S fuel : Nat)
    (sieve : BitSieve) (counters : List Int)
    (hb : 1 ≤ b) (hbs : b < size) (hp : primes.getD b 0 = p) (hodd : p % 2 = 1) :
    (init_next_multiples primes size low).getD b 0 = next_multiple p low
    ∧ IsLeastOddMultiple p low (next_multiple p low)
    ∧ (∀ j, (cross_off p low high S fuel (next_multiple p low) sieve counters).1.get j
          ≠ sieve.get j →
        ∃ m, p ∣ m ∧ m % 2 = 1 ∧ low ≤ m ∧ m < high ∧ j = m - low) := by
  have hleast := next_multiple_least p low hodd
  refine ⟨?_, hleast, ?_⟩
  · rw [init_next_multiples, List.getD_eq_getElem?_getD, List.getElem?_map,
      List.getElem?_range hbs]
    simp only [Option.map_some', Option.getD_some]
    rw [if_neg (by omega), hp]
  · intro j hj
    exact cross_off_only_odd_multiples p low high S hodd fuel (next_multiple p low)
      sieve counters hleast.2.1 hleast.1 hleast.2.2.1 j hj

theorem wheel_first_odd_multiple_witness :
    (1 ≤ 2 ∧ 2 < 4 ∧ ([0, 2, 3, 5] : List Nat).getD 2 0 = 3 ∧ 3 % 2 = 1) ∧
    ((init_next_multiples [0, 2, 3, 5] 4 10).getD 2 0 = next_multiple 3 10
    ∧ IsLeastOddMultiple 3 10 (next_multiple 3 10)
    ∧ (∀ j, (cross_off 3 10 20 10 20 (next_multiple 3 10) ((BitSieve.make 10).memset 10)
          (cnt_finit ((BitSieve.make 10).memset 10) 10)).1.get j
          ≠ ((BitSieve.make 10).memset 10).get j →
        ∃ m, 3 ∣ m ∧ m % 2 = 1 ∧ 10 ≤ m ∧ m < 20 ∧ j = m - 10)) :=
  ⟨⟨by decide, by decide, by decide, by decide⟩,
    wheel_first_odd_multiple [0, 2, 3, 5] 4 10 2 3 20 10 20
      ((BitSieve.make 10).memset 10) (cnt_finit ((BitSieve.make 10).memset 10) 10)
      (by decide) (by decide) (by decide) (by decide)⟩

end Primecount

namespace Primecount

/-! ### Executable primality testing (used to model the external prime
generator and to evaluate the mathematical prime-counting function) -/

/-- The odd primes up to 175 (= the primes whose square can divide a number
below 30976 = 176²), used for fast trial division. -/
def smallPrimes : List Nat :=
  [3, 5, 7, 11, 13, 17, 19, 23, 29, 31, 37, 41, 43, 47, 53, 59, 61, 67, 71, 73,
   79, 83, 89, 97, 101, 103, 107, 109, 113, 127, 131, 137, 139, 149, 151, 157,
   163, 167, 173]

/-- Trial division by a fixed ascending divisor list, stopping once d² > n. -/
def noDiv (n : Nat) : List Nat → Bool
  | [] => true
  | d :: ds => if n < d * d then true else if n % d == 0 then false else noDiv n ds

/-- Trial division by all odd d, d ≥ start, while d² ≤ n (fuel-bounded). -/
def trialOdd (n : Nat) : Nat → Nat → Bool
  | 0, _ => true
  | fuel+1, d => if n < d * d then true else if n % d == 0 then false else trialOdd n fuel (d + 2)

/-- Executable primality test, correct for all n (proved below): trial
division by 2 and the odd primes up to 173, falling back to full odd trial
division from 177 for n ≥ 30976. -/
def isPrime (n : Nat) : Bool :=
  if n < 2 then false
  else if n == 2 then true
  else if n % 2 == 0 then false
  else if noDiv n smallPrimes then (if n < 30976 then true else trialOdd n n 177)
  else false

theorem noDiv_not_dvd (n : Nat) : ∀ (L : List Nat), noDiv n L = true →
    List.Pairwise (· ≤ ·) L → ∀ d ∈ L, d * d ≤ n → ¬ d ∣ n := by
  intro L
  induction L with
  | nil => intro _ _ d hd; simp at hd
  | cons e L' ih =>
    intro hnd hpw d hd hdd
    rw [noDiv] at hnd
    rcases List.mem_cons.mp hd with rfl | hd'
    · rw [if_neg (by omega)] at hnd
      intro hdvd
      have : n % d = 0 := Nat.eq_zero_of_dvd_of_lt hdvd |> fun _ => Nat.mod_eq_zero_of_dvd hdvd
      simp [this] at hnd
    · have hle : e ≤ d := (List.pairwise_cons.mp hpw).1 d hd'
      have hee : e * e ≤ n := le_trans (Nat.mul_le_mul hle hle) hdd
      rw [if_neg (by omega)] at hnd
      by_cases hmod : n % e == 0
      · simp [hmod] at hnd
      · rw [if_neg (by simpa using hmod)] at hnd
        exact ih hnd (List.pairwise_cons.mp hpw).2 d hd' hdd

theorem trialOdd_not_dvd (n : Nat) : ∀ (fuel d : Nat), trialOdd n fuel d = true →
    ∀ e, d ≤ e → (e - d) % 2 = 0 → (e - d) / 2 < fuel → e * e ≤ n → ¬ e ∣ n := by
  intro fuel
  induction fuel with
  | zero => intro d _ e _ _ hlt; omega
  | succ fuel ih =>
    intro d htr e hde hpar hfuel hee
    rw [trialOdd] at htr
    have hdd : d * d ≤ n := le_trans (Nat.mul_le_mul hde hde) hee
    rw [if_neg (by omega)] at htr
    by_cases hed : e = d
    · subst hed
      intro hdvd
      have : n % e = 0 := Nat.mod_eq_zero_of_dvd hdvd
      simp [this] at htr
    · have hde2 : d + 2 ≤ e := by omega
      by_cases hmod : n % d == 0
      · simp [hmod] at htr
      · rw [if_neg (by simpa using hmod)] at htr
        exact ih (d + 2) htr e hde2 (by omega) (by omega) hee
  
end Primecount

namespace Primecount

theorem smallPrimes_sorted : List.Pairwise (· ≤ ·) smallPrimes := by decide

set_option maxRecDepth 10000 in
theorem small_composite_witness : ∀ q < 176, q % 2 = 1 → 3 ≤ q → smallPrimes.elem q = false →
    ∃ d ∈ List.range q, 2 ≤ d ∧ d ∣ q := by decide

theorem noDiv_of_prime (n : Nat) (hp : Nat.Prime n) :
    ∀ L : List Nat, (∀ d ∈ L, 2 ≤ d) → noDiv n L = true := by
  intro L
  induction L with
  | nil => intro _; rfl
  | cons d L' ih =>
    intro hL
    rw [noDiv]
    by_cases hlt : n < d * d
    · rw [if_pos hlt]
    · rw [if_neg hlt]
      have hd2 : 2 ≤ d := hL d (by simp)
      have hmod : ¬ (n % d = 0) := by
        intro hmod
        have hdvd : d ∣ n := Nat.dvd_of_mod_eq_zero hmod
        rcases (Nat.Prime.eq_one_or_self_of_dvd hp d hdvd) with h1 | h1
        · omega
        · have hge : d * d ≤ n := by omega
          rw [h1] at hge
          have h2n : 2 ≤ n := hp.two_le
          nlinarith
      rw [if_neg (by simpa using hmod)]
      exact ih (fun e he => hL e (by simp [he]))

theorem trialOdd_of_prime (n : Nat) (hp : Nat.Prime n) :
    ∀ (fuel d : Nat), 2 ≤ d → trialOdd n fuel d = true := by
  intro fuel
  induction fuel with
  | zero => intro d _; rfl
  | succ fuel ih =>
    intro d hd2
    rw [trialOdd]
    by_cases hlt : n < d * d
    · rw [if_pos hlt]
    · rw [if_neg hlt]
      have hmod : ¬ (n % d = 0) := by
        intro hmod
        have hdvd : d ∣ n := Nat.dvd_of_mod_eq_zero hmod
        rcases (Nat.Prime.eq_one_or_self_of_dvd hp d hdvd) with h1 | h1
        · omega
        · have hge : d * d ≤ n := by omega
          rw [h1] at hge
          have h2n : 2 ≤ n := hp.two_le
          nlinarith
      rw [if_neg (by simpa using hmod)]
      exact ih (d + 2) (by omega)

theorem prime_odd_of_ne_two (q : Nat) (hq : Nat.Prime q) (hne : q ≠ 2) : q % 2 = 1 := by
  have h2 := hq.two_le
  rcases Nat.mod_two_eq_zero_or_one q with h | h
  · exfalso
    have hdvd : 2 ∣ q := Nat.dvd_of_mod_eq_zero h
    rcases (Nat.Prime.eq_one_or_self_of_dvd hq 2 hdvd) with h1 | h1
    · omega
    · exact hne h1.symm
  · exact h

theorem isPrime_iff (n : Nat) : isPrime n = true ↔ Nat.Prime n := by
  constructor
  · intro h
    rw [isPrime] at h
    by_cases h1 : n < 2
    · rw [if_pos h1] at h; exact absurd h (by simp)
    rw [if_neg h1] at h
    by_cases h2 : n = 2
    · subst h2; exact Nat.prime_two
    rw [if_neg (by simpa using h2)] at h
    by_cases h3 : n % 2 = 0
    · rw [if_pos (by simpa using h3)] at h; exact absurd h (by simp)
    rw [if_neg (by simpa using h3)] at h
    by_cases h4 : noDiv n smallPrimes = true
    · rw [if_pos h4] at h
      by_contra hnp
      have hn1 : n ≠ 1 := by omega
      have hq : Nat.Prime (Nat.minFac n) := Nat.minFac_prime hn1
      have hqdvd : Nat.minFac n ∣ n := Nat.minFac_dvd n
      have hqsq : Nat.minFac n * Nat.minFac n ≤ n := by
        have := Nat.minFac_sq_le_self (by omega : 0 < n) hnp
        nlinarith [this]
      set q := Nat.minFac n with hqdef
      have hqne2 : q ≠ 2 := by
        intro h2q
        rw [h2q] at hqdvd
        have := Nat.mod_eq_zero_of_dvd hqdvd
        omega
      have hqodd : q % 2 = 1 := prime_odd_of_ne_two q hq hqne2
      have hq3 : 3 ≤ q := by
        have := hq.two_le
        omega
      by_cases hqmem : q ∈ smallPrimes
      · exact noDiv_not_dvd n smallPrimes h4 smallPrimes_sorted q hqmem hqsq hqdvd
      · have hqmem' : smallPrimes.elem q = false := by
          rw [← Bool.not_eq_true, List.elem_iff]
          exact hqmem
        by_cases h5 : n < 30976
        · have hq176 : q < 176 := by nlinarith
          obtain ⟨d, hd0, hd2, hd3⟩ := small_composite_witness q hq176 hqodd hq3 hqmem'
          have hd1 : d < q := List.mem_range.mp hd0
          rcases (Nat.Prime.eq_one_or_self_of_dvd hq d hd3) with he | he
          · omega
          · omega
        · rw [if_neg h5] at h
          by_cases hq176 : q < 176
          · obtain ⟨d, hd0, hd2, hd3⟩ := small_composite_witness q hq176 hqodd hq3 hqmem'
            have hd1 : d < q := List.mem_range.mp hd0
            rcases (Nat.Prime.eq_one_or_self_of_dvd hq d hd3) with he | he
            · omega
            · omega
          · have hq177 : 177 ≤ q := by omega
            have hqn : q ≤ n := by nlinarith
            exact trialOdd_not_dvd n n 177 h q hq177 (by omega) (by omega) hqsq hqdvd
    · rw [if_neg h4] at h
      exact absurd h (by simp)
  · intro hp
    have h2 := hp.two_le
    rw [isPrime, if_neg (by omega)]
    by_cases hn2 : n = 2
    · simp [hn2]
    rw [if_neg (by simpa using hn2)]
    have hodd : n % 2 = 1 := prime_odd_of_ne_two n hp hn2
    rw [if_neg (by simp [hodd])]
    rw [if_pos (noDiv_of_prime n hp smallPrimes (by decide))]
    by_cases h5 : n < 30976
    · rw [if_pos h5]
    · rw [if_neg h5]
      exact trialOdd_of_prime n hp n 177 (by omega)

end Primecount

namespace Primecount

/-- The mathematical prime-counting function π(n). -/
def piFun (n : Nat) : Nat := ((Finset.range (n + 1)).filter Nat.Prime).card

/-- Executable count of primes in [a, a + len). -/
def primesIn (a : Nat) : Nat → Nat
  | 0 => 0
  | len+1 => primesIn a len + (if isPrime (a + len) then 1 else 0)

/-- Executable π(n). -/
def piUpTo : Nat → Nat
  | 0 => 0
  | n+1 => piUpTo n + (if isPrime (n + 1) then 1 else 0)

theorem primesIn_eq_card (a : Nat) :
    ∀ len, primesIn a len = ((Finset.Ico a (a + len)).filter Nat.Prime).card
  | 0 => by simp [primesIn]
  | len+1 => by
    rw [primesIn, primesIn_eq_card a len]
    rw [show a + (len + 1) = (a + len) + 1 from rfl]
    rw [Nat.Ico_succ_right_eq_insert_Ico (by omega), Finset.filter_insert]
    by_cases h : Nat.Prime (a + len)
    · rw [if_pos h, Finset.card_insert_of_not_mem (by simp),
        if_pos ((isPrime_iff (a + len)).mpr h)]
    · rw [if_neg h, if_neg (by
        intro hc
        exact h ((isPrime_iff (a + len)).mp hc))]
      omega

theorem piFun_eq_Ico (n : Nat) :
    piFun n = ((Finset.Ico 0 (n + 1)).filter Nat.Prime).card := by
  rw [piFun, Finset.range_eq_Ico]

theorem piFun_succ (n : Nat) :
    piFun (n + 1) = piFun n + (if isPrime (n + 1) then 1 else 0) := by
  rw [piFun_eq_Ico n]
  conv_lhs => rw [piFun_eq_Ico (n + 1),
    Nat.Ico_succ_right_eq_insert_Ico (by omega : (0:Nat) ≤ n + 1), Finset.filter_insert]
  by_cases h : Nat.Prime (n + 1)
  · rw [if_pos h, Finset.card_insert_of_not_mem (by simp),
      if_pos ((isPrime_iff (n + 1)).mpr h)]
  · rw [if_neg h, if_neg (by
      intro hc
      exact h ((isPrime_iff (n + 1)).mp hc))]
    omega

theorem piUpTo_eq_piFun : ∀ n, piUpTo n = piFun n := by
  intro n
  induction n with
  | zero => rw [piUpTo, piFun]; decide
  | succ n ih =>
    rw [piUpTo, ih, piFun_succ]

/-! ### The S2 computation of pi_lmo_parallel3.cpp -/

/-- `isqrt` from pmath.hpp (not under src; modelled from the spec: integer
square root). -/
def isqrt (n : Nat) : Nat := Nat.sqrt n

/-- `next_power_of_2` from pmath.hpp (not under src; modelled from the
spec, §4.8 "next_pow2"): the least power of two ≥ max(n, 1). -/
def next_power_of_2 (n : Nat) : Nat := if n ≤ 1 then 1 else 2 ^ (Nat.clog 2 n)

/-- `in_between(min, x, max)` from pmath.hpp (not under src; modelled from
the spec's clamping usage). -/
def in_between (lo x hi : Nat) : Nat := max lo (min x hi)

/-- `validate_threads` from primecount-internal (not under src; modelled
from the spec: thread count ≥ 1). -/
def validate_threads (t : Nat) : Nat := max 1 t

/-- `pi_bsearch(primes, n)` (not under src; modelled from the spec's
invariant π(primes[k]) = k): largest index whose prime is ≤ n in the
1-based sorted prime array. -/
def pi_bsearch (primes : List Nat) (n : Nat) : Nat :=
  (primes.filter (fun p => decide (p ≤ n))).length - 1

/-- `make_pi(y)` (not under src; modelled from the spec: a table of π(i)
for i ≤ y). -/
def make_pi (y : Nat) : List Nat := (List.range (y + 1)).map piUpTo

/-- The per-thread mutable state of `S2_thread`: the partial sum, the
mu_sum and phi accumulators, the bit sieve, the counter tree and the wheel
of next multiples. -/
structure ThreadSt where
  s2 : Int
  mu_sum : List Int
  phi : List Int
  sieve : BitSieve
  counters : List Int
  next : List Nat

/-- The unset-only crossing used for the first c primes
(pi_lmo_parallel3.cpp lines 120-123). -/
def strike (prime low high : Nat) : Nat → Nat → BitSieve → BitSieve × Nat
  | 0, k, sieve => (sieve, k)
  | fuel+1, k, sieve =>
    if k < high then strike prime low high fuel (k + 2 * prime) (sieve.unset (k - low))
    else (sieve, k)

/-- The loop sieving out multiples of the primes b = 2..c
(pi_lmo_parallel3.cpp lines 118-124). -/
def sieve_c_loop (low high : Nat) (primes : List Nat) :
    Nat → Nat → BitSieve → List Nat → BitSieve × List Nat
  | 0, _, sieve, next => (sieve, next)
  | cnt+1, b, sieve, next =>
    let prime := primes.getD b 0
    let r := strike prime low high (high + 1) (next.getD b 0) sieve
    sieve_c_loop low high primes cnt (b + 1) r.1 (next.set b r.2)

/-- The special-leaf loop over m (pi_lmo_parallel3.cpp lines 141-151),
descending from max_m; the accumulator carries (S2_thread, mu_sum[b]). -/
def mLoop (x prime low S : Nat) (mu : List Int) (lpf : List Nat)
    (sieve : BitSieve) (counters : List Int) (phib : Int) :
    Nat → Nat → Int × Int → Int × Int
  | 0, _, acc => acc
  | cnt+1, m, acc =>
    if mu.getD m 0 ≠ 0 ∧ prime < lpf.getD m 0 then
      let n := prime * m
      let q := cnt_query sieve counters (x / n - low) S
      mLoop x prime low S mu lpf sieve counters phib cnt (m - 1)
        (acc.1 - mu.getD m 0 * (phib + q), acc.2 - mu.getD m 0)
    else
      mLoop x prime low S mu lpf sieve counters phib cnt (m - 1) acc

/-- The special-leaf loop over l (pi_lmo_parallel3.cpp lines 171-178). -/
def lLoop (x prime low S : Nat) (primes : List Nat)
    (sieve : BitSieve) (counters : List Int) (phib : Int) :
    Nat → Nat → Int × Int → Int × Int
  | 0, _, acc => acc
  | cnt+1, l, acc =>
    let n := prime * primes.getD l 0
    let q := cnt_query sieve counters (x / n - low) S
    lLoop x prime low S primes sieve counters phib cnt (l - 1)
      (acc.1 + (phib + q), acc.2 + 1)

/-- The loop over c < b < min(pi_sqrty, size)
(pi_lmo_parallel3.cpp lines 132-155); the Bool records whether
`goto next_segment` fired. -/
def loop1 (x y low high S : Nat) (primes lpf : List Nat) (mu : List Int) :
    Nat → Nat → ThreadSt → ThreadSt × Bool
  | 0, _, st => (st, false)
  | cnt+1, b, st =>
    let prime := primes.getD b 0
    let min_m := max (x / (prime * high)) (y / prime)
    let max_m := min (x / (prime * low)) y
    if max_m ≤ prime then (st, true)
    else
      let r := mLoop x prime low S mu lpf st.sieve st.counters (st.phi.getD b 0)
        (max_m - min_m) max_m (st.s2, st.mu_sum.getD b 0)
      let phib := st.phi.getD b 0 + cnt_query st.sieve st.counters (high - 1 - low) S
      let co := cross_off prime low high S (high + 1) (st.next.getD b 0) st.sieve st.counters
      loop1 x y low high S primes lpf mu cnt (b + 1)
        { s2 := r.1, mu_sum := st.mu_sum.set b r.2, phi := st.phi.set b phib,
          sieve := co.1, counters := co.2.1, next := st.next.set b co.2.2 }

/-- The loop over min(pi_sqrty, size) ≤ b < min(pi_y, size)
(pi_lmo_parallel3.cpp lines 160-182). -/
def loop2 (x y low high S : Nat) (pi primes : List Nat) :
    Nat → Nat → ThreadSt → ThreadSt × Bool
  | 0, _, st => (st, false)
  | cnt+1, b, st =>
    let prime := primes.getD b 0
    let l0 := pi.getD (min (x / (prime * low)) y) 0
    let min_m := in_between prime (max (x / (prime * high)) (y / prime)) y
    let min_l := pi.getD min_m 0
    if primes.getD l0 0 ≤ prime then (st, true)
    else
      let r := lLoop x prime low S primes st.sieve st.counters (st.phi.getD b 0)
        (l0 - min_l) l0 (st.s2, st.mu_sum.getD b 0)
      let phib := st.phi.getD b 0 + cnt_query st.sieve st.counters (high - 1 - low) S
      let co := cross_off prime low high S (high + 1) (st.next.getD b 0) st.sieve st.counters
      loop2 x y low high S pi primes cnt (b + 1)
        { s2 := r.1, mu_sum := st.mu_sum.set b r.2, phi := st.phi.set b phib,
          sieve := co.1, counters := co.2.1, next := st.next.set b co.2.2 }

/-- One segment [low, min(low+S, limit)) of `S2_thread`
(pi_lmo_parallel3.cpp lines 108-185). -/
def processSegment (x y c pi_sqrty pi_y size S : Nat) (pi primes lpf : List Nat)
    (mu : List Int) (limit low : Nat) (st : ThreadSt) : ThreadSt :=
  let high := min (low + S) limit
  let sieve0 := st.sieve.memset low
  let sc := sieve_c_loop low high primes (c - 1) 2 sieve0 st.next
  let counters1 := cnt_finit sc.1 S
  let st1 : ThreadSt := { st with sieve := sc.1, counters := counters1, next := sc.2 }
  let b1 := c + 1
  let r1 := loop1 x y low high S primes lpf mu (min pi_sqrty size - b1) b1 st1
  if r1.2 then r1.1
  else
    let b2 := max b1 (min pi_sqrty size)
    (loop2 x y low high S pi primes (min pi_y size - b2) b2 r1.1).1

/-- The loop over the segments of a thread slice
(pi_lmo_parallel3.cpp line 108). -/
def segLoop (x y c pi_sqrty pi_y size S : Nat) (pi primes lpf : List Nat)
    (mu : List Int) (limit : Nat) : Nat → Nat → ThreadSt → ThreadSt
  | 0, _, st => st
  | cnt+1, low, st =>
    segLoop x y c pi_sqrty pi_y size S pi primes lpf mu limit cnt (low + S)
      (processSegment x y c pi_sqrty pi_y size S pi primes lpf mu limit low st)

/-- `S2_thread` from pi_lmo_parallel3.cpp lines 75-188: the S2 contribution
of the interval assigned to one thread, together with its mu_sum and phi
accumulators (left empty when `c ≥ size - 1`, exactly as in the source
where the vectors are only resized after that guard). -/
def S2_thread (x y c pi_sqrty pi_y segment_size segments_per_thread thread_num low0 limit0 : Nat)
    (pi primes lpf : List Nat) (mu : List Int) : Int × List Int × List Int :=
  let low := low0 + segment_size * segments_per_thread * thread_num
  let limit := min (low + segment_size * segments_per_thread) limit0
  let size := pi.getD (min (isqrt (x / low)) y) 0 + 1
  if c ≥ size - 1 then (0, [], [])
  else
    let next := init_next_multiples primes size low
    let segs := if low < limit then ceil_div (limit - low) segment_size else 0
    let st := segLoop x y c pi_sqrty pi_y size segment_size pi primes lpf mu limit segs low
      { s2 := 0, mu_sum := List.replicate size 0, phi := List.replicate size 0,
        sieve := BitSieve.make segment_size,
        counters := List.replicate segment_size 0, next := next }
    (st.s2, st.mu_sum, st.phi)

end Primecount

namespace Primecount

/-- The inner combine loop over j ∈ [1, phi_i.size)
(pi_lmo_parallel3.cpp lines 260-267): first add phi_total[j]·mu_sum[j] to
the total, then fold phi[j] into phi_total[j]. -/
def combineJ (mu_sum phi : List Int) : Nat → Nat → List Int × Int → List Int × Int
  | 0, _, acc => acc
  | cnt+1, j, acc =>
    combineJ mu_sum phi cnt (j + 1)
      (acc.1.set j (acc.1.getD j 0 + phi.getD j 0),
       acc.2 + acc.1.getD j 0 * mu_sum.getD j 0)

/-- The ordered combine over the threads of one wave. -/
def combineAll (results : List (Int × List Int × List Int))
    (acc : List Int × Int) : List Int × Int :=
  results.foldl (fun a r => combineJ r.2.1 r.2.2 (r.2.2.length - 1) 1 a) acc

/-- The dynamic adaptation of segment_size and segments_per_thread after a
wave (pi_lmo_parallel3.cpp lines 247-253): only when the advanced low
exceeds √limit and the wave was fast, double segment_size while it is
below √limit, and double segments_per_thread afterwards. -/
def S2_adapt (sqrt_limit : Nat) (fast : Bool) (low' seg spt : Nat) : Nat × Nat :=
  if sqrt_limit < low' ∧ fast = true then
    if seg < sqrt_limit then (seg * 2, spt) else (seg, spt * 2)
  else (seg, spt)

/-- The wave state of the S2 coordinator. -/
structure S2State where
  low : Nat
  segment_size : Nat
  segments_per_thread : Nat
  threads : Nat
  wave : Nat
  phi_total : List Int
  total : Int

/-- One wave of the S2 loop (pi_lmo_parallel3.cpp lines 223-267): clamp
threads and segments_per_thread, run the threads, advance low, adapt the
parameters, and replay the per-thread mu_sum against the running phi_total
in thread-index order. -/
def S2_step (x y c pi_sqrty pi_y limit sqrt_limit : Nat) (pi primes lpf : List Nat)
    (mu : List Int) (fast : Nat → Bool) (st : S2State) : S2State :=
  let segments := ceil_div (limit - st.low) st.segment_size
  let threads := in_between 1 st.threads segments
  let spt := in_between 1 st.segments_per_thread (ceil_div segments threads)
  let results := (List.range threads).map (fun i =>
    S2_thread x y c pi_sqrty pi_y st.segment_size spt i st.low limit pi primes lpf mu)
  let total1 := st.total + (results.map (fun r => r.1)).sum
  let low' := st.low + spt * threads * st.segment_size
  let a := S2_adapt sqrt_limit (fast st.wave) low' st.segment_size spt
  let combined := combineAll results (st.phi_total, total1)
  { low := low', segment_size := a.1, segments_per_thread := a.2, threads := threads,
    wave := st.wave + 1, phi_total := combined.1, total := combined.2 }

/-- The S2 wave loop (`while (low < limit)`), as a fuel recursion; every
wave advances low by at least 64, so fuel = limit suffices. -/
def S2_loop (x y c pi_sqrty pi_y limit sqrt_limit : Nat) (pi primes lpf : List Nat)
    (mu : List Int) (fast : Nat → Bool) : Nat → S2State → Int
  | 0, st => st.total
  | fuel+1, st =>
    if st.low < limit then
      S2_loop x y c pi_sqrty pi_y limit sqrt_limit pi primes lpf mu fast fuel
        (S2_step x y c pi_sqrty pi_y limit sqrt_limit pi primes lpf mu fast st)
    else st.total

/-- The initial segment size of S2 (pi_lmo_parallel3.cpp lines 213-221):
next_power_of_2(√limit / (log x · threads)), at least 2⁶. `logx` stands for
the floating-point `ilog(x)` of the source (pmath.hpp is not under src);
the source applies `max(1, ·)` to it. -/
def S2_init_segment_size (sqrt_limit logx threads : Nat) : Nat :=
  max (next_power_of_2 (sqrt_limit / (max 1 logx * threads))) 64

/-- `S2` from pi_lmo_parallel3.cpp lines 198-271: the special-leaf
contribution, computed in dynamically balanced parallel waves. `fast w`
models the wall-clock measurement "seconds < 10" of wave w. -/
def S2 (x y pi_y c : Nat) (primes lpf : List Nat) (mu : List Int)
    (threads0 logx : Nat) (fast : Nat → Bool) : Int :=
  let threads := validate_threads threads0
  let limit := x / y + 1
  let sqrt_limit := isqrt limit
  let segment_size := S2_init_segment_size sqrt_limit logx threads
  let pi_sqrty := pi_bsearch primes (isqrt y)
  let pi := make_pi y
  S2_loop x y c pi_sqrty pi_y limit sqrt_limit pi primes lpf mu fast limit
    { low := 1, segment_size := segment_size, segments_per_thread := 1,
      threads := threads, wave := 0,
      phi_total := List.replicate primes.length 0, total := 0 }

/-! ### pi_lmo_parallel3 (lines 281-306); S1, P2 and the generators are
not under src/ and are modelled from the spec -/

/-- Modelled from the spec (glossary): φ(x, a) = number of integers in
[1, x] not divisible by any of the first a primes (primes is the 1-based
prime array). -/
def phiModel (x a : Nat) (primes : List Nat) : Nat :=
  ((Finset.Icc 1 x).filter
    (fun n => ∀ i ∈ Finset.Icc 1 a, n % primes.getD i 0 ≠ 0)).card

/-- Modelled from the spec: S1, the sum over squarefree n ≤ y with
lpf(n) > primes[c] of μ(n)·φ(x/n, c) ("special leaves with many distinct
prime factors", with the appropriate signs; `S1.cpp` is not under src). -/
def S1model (x y c : Nat) (primes lpf : List Nat) (mu : List Int) : Int :=
  ∑ n ∈ Finset.Icc 1 y,
    (if primes.getD c 0 < lpf.getD n 0 then mu.getD n 0 * (phiModel (x / n) c primes : Int)
     else 0)

/-- Modelled from the spec (§4.6): P2(x, y) counts the pairs (p, q) of
primes with y < p ≤ √x, p ≤ q and p·q ≤ x (`P2.cpp` is not under src). -/
def P2model (x y : Nat) : Int :=
  (((Finset.Icc (y + 1) (isqrt x)) ×ˢ (Finset.Icc 1 x)).filter
    (fun pq => Nat.Prime pq.1 ∧ Nat.Prime pq.2 ∧ pq.1 ≤ pq.2 ∧ pq.1 * pq.2 ≤ x)).card

/-- Modelled from the spec: the number of distinct prime divisors of n. -/
def distinctPrimeDivisors (n : Nat) : Nat :=
  ((List.range (n + 1)).filter (fun p => isPrime p && n % p == 0)).length

/-- Modelled from the spec: squarefreeness test. -/
def squarefreeEx (n : Nat) : Bool :=
  (List.range (n + 1)).all (fun d => d < 2 || n % (d * d) != 0)

/-- Modelled from the spec (glossary): the Möbius function. -/
def muEx (n : Nat) : Int :=
  if n = 0 then 0
  else if squarefreeEx n then (-1 : Int) ^ distinctPrimeDivisors n else 0

/-- Modelled from the spec: `make_moebius(y)` = μ[0..y]
(generate.cpp is not under src). -/
def make_moebius (y : Nat) : List Int := (List.range (y + 1)).map muEx

/-- Modelled from the spec: the least prime factor (1 for n ≤ 1). -/
def lpfEx (n : Nat) : Nat :=
  (((List.range (n + 1)).filter (fun p => 2 ≤ p && n % p == 0))).headD 1

/-- Modelled from the spec: `make_least_prime_factor(y)` = lpf[0..y]. -/
def make_least_prime_factor (y : Nat) : List Nat :=
  (List.range (y + 1)).map lpfEx

/-- Modelled from the spec: the external prime generator
(primesieve::generate_primes), yielding the primes ≤ y in order. -/
def generate_primes (y : Nat) : List Nat :=
  (List.range (y + 1)).filter (fun p => isPrime p)

/-- `pi_lmo_parallel3(x, threads)` from pi_lmo_parallel3.cpp lines 281-306.
The source computes y = α·x^(1/3) with a floating-point heuristic α; the
exact value cannot be fixed in integer arithmetic, so y is a parameter
here (as are `logx` and the wall-clock oracle `fast`, see `S2`).
For x < 2 the source returns 0 before any of that, for every y. -/
def pi_lmo_parallel3 (x : Int) (threads : Nat) (y logx : Nat) (fast : Nat → Bool) : Int :=
  if x < 2 then 0
  else
    let xn := x.toNat
    let mu := make_moebius y
    let lpf := make_least_prime_factor y
    let primes := 0 :: generate_primes y
    let pi_y := primes.length - 1
    let c := min 7 pi_y
    let s1 := S1model xn y c primes lpf mu
    let s2 := S2 xn y pi_y c primes lpf mu threads logx fast
    let p2 := P2model xn y
    s1 + s2 + (pi_y : Int) - 1 - p2

end Primecount

namespace Primecount

theorem S2_loop_exit (x y c pi_sqrty pi_y limit sqrt_limit : Nat) (pi primes lpf : List Nat)
    (mu : List Int) (fast : Nat → Bool) (f : Nat) (st : S2State) (h : ¬ st.low < limit) :
    S2_loop x y c pi_sqrty pi_y limit sqrt_limit pi primes lpf mu fast f st = st.total := by
  cases f with
  | zero => rfl
  | succ f => rw [S2_loop, if_neg h]

theorem S2_step_low_eq (x y c pi_sqrty pi_y limit sqrt_limit : Nat) (pi primes lpf : List Nat)
    (mu : List Int) (fast : Nat → Bool) (st : S2State) :
    (S2_step x y c pi_sqrty pi_y limit sqrt_limit pi primes lpf mu fast st).low
      = st.low
        + in_between 1 st.segments_per_thread
            (ceil_div (ceil_div (limit - st.low) st.segment_size)
              (in_between 1 st.threads (ceil_div (limit - st.low) st.segment_size)))
          * in_between 1 st.threads (ceil_div (limit - st.low) st.segment_size)
          * st.segment_size := rfl

theorem S2_step_low_ge (x y c pi_sqrty pi_y limit sqrt_limit : Nat) (pi primes lpf : List Nat)
    (mu : List Int) (fast : Nat → Bool) (st : S2State) (hseg : 64 ≤ st.segment_size) :
    st.low + 64 ≤ (S2_step x y c pi_sqrty pi_y limit sqrt_limit pi primes lpf mu fast st).low := by
  rw [S2_step_low_eq]
  have h1 : 1 ≤ in_between 1 st.segments_per_thread
      (ceil_div (ceil_div (limit - st.low) st.segment_size)
        (in_between 1 st.threads (ceil_div (limit - st.low) st.segment_size))) := le_max_left _ _
  have h2 : 1 ≤ in_between 1 st.threads (ceil_div (limit - st.low) st.segment_size) :=
    le_max_left _ _
  have := Nat.mul_le_mul (Nat.mul_le_mul h1 h2) hseg
  omega

theorem S2_step_seg_ge (x y c pi_sqrty pi_y limit sqrt_limit : Nat) (pi primes lpf : List Nat)
    (mu : List Int) (fast : Nat → Bool) (st : S2State) :
    st.segment_size
      ≤ (S2_step x y c pi_sqrty pi_y limit sqrt_limit pi primes lpf mu fast st).segment_size := by
  show st.segment_size ≤ (S2_adapt _ _ _ _ _).1
  rw [S2_adapt]
  split_ifs <;> simp <;> omega

theorem S2_step_threads_ge (x y c pi_sqrty pi_y limit sqrt_limit : Nat) (pi primes lpf : List Nat)
    (mu : List Int) (fast : Nat → Bool) (st : S2State) :
    1 ≤ (S2_step x y c pi_sqrty pi_y limit sqrt_limit pi primes lpf mu fast st).threads :=
  le_max_left _ _

theorem S2_loop_fuel_stable (x y c pi_sqrty pi_y limit sqrt_limit : Nat) (pi primes lpf : List Nat)
    (mu : List Int) (fast : Nat → Bool) :
    ∀ (n : Nat) (st : S2State) (f g : Nat),
      64 ≤ st.segment_size → limit - st.low ≤ n → limit - st.low ≤ f → limit - st.low ≤ g →
      S2_loop x y c pi_sqrty pi_y limit sqrt_limit pi primes lpf mu fast f st
        = S2_loop x y c pi_sqrty pi_y limit sqrt_limit pi primes lpf mu fast g st := by
  intro n
  induction n with
  | zero =>
    intro st f g hseg hn hf hg
    have hexit : ¬ st.low < limit := by omega
    rw [S2_loop_exit _ _ _ _ _ _ _ _ _ _ _ _ _ _ hexit,
      S2_loop_exit _ _ _ _ _ _ _ _ _ _ _ _ _ _ hexit]
  | succ n ih =>
    intro st f g hseg hn hf hg
    by_cases hl : st.low < limit
    · obtain ⟨f', rfl⟩ : ∃ f', f = f' + 1 := ⟨f - 1, by omega⟩
      obtain ⟨g', rfl⟩ : ∃ g', g = g' + 1 := ⟨g - 1, by omega⟩
      rw [S2_loop, if_pos hl, S2_loop, if_pos hl]
      have hlow' := S2_step_low_ge x y c pi_sqrty pi_y limit sqrt_limit pi primes lpf mu fast st hseg
      have hseg' := S2_step_seg_ge x y c pi_sqrty pi_y limit sqrt_limit pi primes lpf mu fast st
      exact ih (S2_step x y c pi_sqrty pi_y limit sqrt_limit pi primes lpf mu fast st) f' g'
        (by omega) (by omega) (by omega) (by omega)
    · rw [S2_loop_exit _ _ _ _ _ _ _ _ _ _ _ _ _ _ hl,
        S2_loop_exit _ _ _ _ _ _ _ _ _ _ _ _ _ _ hl]

end Primecount

namespace Primecount

/-- C10: every wave of the S2 loop advances low by
segments_per_thread · threads · segment_size ≥ 64 (after the per-wave
clamps), so the wave loop terminates: its value is independent of any
sufficient fuel. -/
theorem S2_wave_progress_and_termination (x y c pi_sqrty pi_y limit sqrt_limit : Nat)
    (pi primes lpf : List Nat) (mu : List Int) (fast : Nat → Bool)
    (st : S2State) (f g : Nat)
    (hseg : 64 ≤ st.segment_size) (hf : limit - st.low ≤ f) (hg : limit - st.low ≤ g) :
    ((S2_step x y c pi_sqrty pi_y limit sqrt_limit pi primes lpf mu fast st).low
      = st.low
        + in_between 1 st.segments_per_thread
            (ceil_div (ceil_div (limit - st.low) st.segment_size)
              (in_between 1 st.threads (ceil_div (limit - st.low) st.segment_size)))
          * in_between 1 st.threads (ceil_div (limit - st.low) st.segment_size)
          * st.segment_size)
    ∧ st.low + 64 ≤ (S2_step x y c pi_sqrty pi_y limit sqrt_limit pi primes lpf mu fast st).low
    ∧ S2_loop x y c pi_sqrty pi_y limit sqrt_limit pi primes lpf mu fast f st
        = S2_loop x y c pi_sqrty pi_y limit sqrt_limit pi primes lpf mu fast g st :=
  ⟨S2_step_low_eq x y c pi_sqrty pi_y limit sqrt_limit pi primes lpf mu fast st,
   S2_step_low_ge x y c pi_sqrty pi_y limit sqrt_limit pi primes lpf mu fast st hseg,
   S2_loop_fuel_stable x y c pi_sqrty pi_y limit sqrt_limit pi primes lpf mu fast
     (limit - st.low) st f g hseg (by omega) hf hg⟩

theorem S2_wave_progress_and_termination_witness :
    (64 ≤ 64 ∧ 21 - 1 ≤ 21 ∧ 21 - 1 ≤ 25) ∧
    (((S2_step 100 5 3 1 3 21 4 (make_pi 5) [0, 2, 3, 5] (make_least_prime_factor 5)
        (make_moebius 5) (fun _ => true)
        ⟨1, 64, 1, 1, 0, List.replicate 4 0, 0⟩).low
      = 1 + in_between 1 1 (ceil_div (ceil_div (21 - 1) 64) (in_between 1 1 (ceil_div (21 - 1) 64)))
          * in_between 1 1 (ceil_div (21 - 1) 64) * 64)
    ∧ 1 + 64 ≤ (S2_step 100 5 3 1 3 21 4 (make_pi 5) [0, 2, 3, 5] (make_least_prime_factor 5)
        (make_moebius 5) (fun _ => true) ⟨1, 64, 1, 1, 0, List.replicate 4 0, 0⟩).low
    ∧ S2_loop 100 5 3 1 3 21 4 (make_pi 5) [0, 2, 3, 5] (make_least_prime_factor 5)
        (make_moebius 5) (fun _ => true) 21 ⟨1, 64, 1, 1, 0, List.replicate 4 0, 0⟩
      = S2_loop 100 5 3 1 3 21 4 (make_pi 5) [0, 2, 3, 5] (make_least_prime_factor 5)
        (make_moebius 5) (fun _ => true) 25 ⟨1, 64, 1, 1, 0, List.replicate 4 0, 0⟩) :=
  ⟨⟨by decide, by decide, by decide⟩,
   S2_wave_progress_and_termination 100 5 3 1 3 21 4 (make_pi 5) [0, 2, 3, 5]
     (make_least_prime_factor 5) (make_moebius 5) (fun _ => true)
     ⟨1, 64, 1, 1, 0, List.replicate 4 0, 0⟩ 21 25 (by decide) (by decide) (by decide)⟩

/-- C8 (counterexample): a wave that is fast (seconds below the threshold)
with segment_size = 64 < √limit = 200 after which segment_size is NOT
doubled, because the advanced low (65) does not exceed √limit — a condition
the claim omits. -/
theorem S2_adaptive_segments_counterexample :
    (S2_step 100 5 3 1 3 40000 200 (make_pi 5) [0, 2, 3, 5] (make_least_prime_factor 5)
        (make_moebius 5) (fun _ => true)
        ⟨1, 64, 1, 1, 0, List.replicate 4 0, 0⟩).segment_size = 64
    ∧ (64 : Nat) < 200 ∧ (fun (_ : Nat) => true) 0 = true := by
  refine ⟨?_, by decide, rfl⟩
  rfl

/-- C8 (amended): segment_size starts at
max(next_power_of_2(√limit/(log x·threads)), 64) with segments_per_thread
= 1; after a wave the two parameters change only when the advanced low
exceeds √limit AND the wave was fast, in which case segment_size doubles
while below √limit and segments_per_thread doubles afterwards;
segment_size never decreases, while segments_per_thread is re-clamped at
each wave start to ceil(remaining segments / threads) and can therefore
decrease. -/
theorem S2_adaptive_segments (x y pi_y c : Nat) (primes lpf : List Nat) (mu : List Int)
    (threads0 logx : Nat) (fast : Nat → Bool)
    (xs ys cs pi_sqrtys pi_ys limit sqrt_limit : Nat) (pis primess lpfs : List Nat)
    (mus : List Int) (fasts : Nat → Bool) (st : S2State) :
    (S2 x y pi_y c primes lpf mu threads0 logx fast
      = S2_loop x y c (pi_bsearch primes (isqrt y)) pi_y (x / y + 1) (isqrt (x / y + 1))
          (make_pi y) primes lpf mu fast (x / y + 1)
          { low := 1,
            segment_size := S2_init_segment_size (isqrt (x / y + 1)) logx (validate_threads threads0),
            segments_per_thread := 1, threads := validate_threads threads0, wave := 0,
            phi_total := List.replicate primes.length 0, total := 0 })
    ∧ 64 ≤ S2_init_segment_size (isqrt (x / y + 1)) logx (validate_threads threads0)
    ∧ ((S2_step xs ys cs pi_sqrtys pi_ys limit sqrt_limit pis primess lpfs mus fasts st).segment_size,
       (S2_step xs ys cs pi_sqrtys pi_ys limit sqrt_limit pis primess lpfs mus fasts st).segments_per_thread)
      = S2_adapt sqrt_limit (fasts st.wave)
          ((S2_step xs ys cs pi_sqrtys pi_ys limit sqrt_limit pis primess lpfs mus fasts st).low)
          st.segment_size
          (in_between 1 st.segments_per_thread
            (ceil_div (ceil_div (limit - st.low) st.segment_size)
              (in_between 1 st.threads (ceil_div (limit - st.low) st.segment_size))))
    ∧ st.segment_size
      ≤ (S2_step xs ys cs pi_sqrtys pi_ys limit sqrt_limit pis primess lpfs mus fasts st).segment_size :=
  ⟨rfl, le_max_right _ _, rfl,
   S2_step_seg_ge xs ys cs pi_sqrtys pi_ys limit sqrt_limit pis primess lpfs mus fasts st⟩

/-- C9 (counterexample): for the negative input x = −5 the function
returns the ordinary value 0; no failure is reported and the caller does
receive a result. -/
theorem pi_lmo_negative_counterexample :
    pi_lmo_parallel3 (-5) 1 5 1 (fun _ => true) = 0 := by
  rfl

/-- C9 (amended): for every x < 2 — negative x included —
pi_lmo_parallel3 returns 0 synchronously; there is no error path. -/
theorem pi_lmo_negative_returns_zero (x : Int) (threads y logx : Nat) (fast : Nat → Bool)
    (h : x < 2) :
    pi_lmo_parallel3 x threads y logx fast = 0 := by
  rw [pi_lmo_parallel3, if_pos h]

theorem pi_lmo_negative_returns_zero_witness :
    ((-7 : Int) < 2) ∧ pi_lmo_parallel3 (-7) 4 10 2 (fun _ => false) = 0 :=
  ⟨by decide, pi_lmo_negative_returns_zero (-7) 4 10 2 (fun _ => false) (by decide)⟩

end Primecount

namespace Primecount

/-! ### PiTable (PiTable.cpp): compressed PrimePi lookup table -/

/-- The `count` fields of `PiTable::pi_cache_` (PiTable.cpp lines 40-106). -/
def piCacheCounts : List Nat :=
  [
   3, 52, 92, 128, 162, 196,
   228, 263, 293, 325, 357, 382,
   417, 444, 473, 503, 532, 562,
   590, 617, 646, 675, 700, 729,
   757, 783, 811, 840, 867, 893,
   919, 942, 973, 1000, 1023, 1051,
   1075, 1106, 1130, 1158, 1184, 1214,
   1237, 1265, 1289, 1315, 1337, 1364,
   1389, 1409, 1438, 1462, 1489, 1518,
   1543, 1570, 1592, 1615, 1645, 1667,
   1686, 1715, 1743, 1765, 1794, 1818,
   1847, 1871, 1893, 1916, 1939, 1965,
   1986, 2016, 2038, 2064, 2090, 2116,
   2137, 2156, 2176, 2203, 2226, 2252,
   2280, 2305, 2326, 2348, 2373, 2397,
   2425, 2449, 2475, 2500, 2521, 2547,
   2571, 2595, 2614, 2642, 2668, 2697,
   2716, 2736, 2757, 2781, 2804, 2829,
   2851, 2874, 2900, 2920, 2948, 2974,
   2991, 3012, 3040, 3062, 3085, 3107,
   3136, 3159, 3181, 3204, 3226, 3245,
   3269, 3290
  ]

/-- The `bits` fields of `PiTable::pi_cache_` (PiTable.cpp lines 40-106),
in decimal. -/
def piCacheBits : List Nat :=
  [
   17959752465883586558, 11451992955504447445, 11914797538211990758, 6243711437321168746, 6146334725191361366, 17915693167201526745,
   4184959400618032430, 6106618608764013752, 5732163995926446476, 17228451772896466977, 5083583099101156948, 9752702852004772722,
   11593152083193795282, 11091100602678589457, 5563057301726187917, 5501345040118352730, 14088346510684464718, 202043735611601196,
   3493188397736151730, 17880535463302859587, 10226112745700655385, 14131770778440144420, 11273687696926984401, 3320675472085707271,
   1443571157317145952, 2841851961100884614, 7026462780493763538, 12513746493188744197, 12688480532922469400, 5918913812234422103,
   4830147490672040622, 6980889320266839604, 10698939526530275943, 1176975144737311130, 3659213310745485607, 4085125996901243360,
   2068727147688289987, 2955114037865965578, 3342882660835084058, 1154827047852165908, 16377112349434259945, 12983930545850489140,
   5516584381334274412, 9334152748677210717, 11892011578262181506, 1173964714754167552, 14366555506338191794, 10071766499385419554,
   662493209026003330, 1561017142721074416, 10470885355560906246, 14058379003421599437, 5369652145208136534, 14156748808694073953,
   1974288473461898346, 518213257899713712, 11568273076043420373, 6663222444845968799, 16717956740128184333, 3495668835657257496,
   17585448067654562663, 12774251877526702232, 1538332319202846742, 11649321166474724533, 911153295821784409, 780904760422644899,
   9081531792064460320, 9514524710768054614, 5809738138897165480, 1180823176730155019, 8433984634641189316, 154311794810339851,
   11805668765677737516, 3641737199150555424, 3976869532742586817, 7720613211817491464, 534316635969761436, 14205762868829851209,
   10393323466900783812, 887635753764676648, 9099452715478197038, 288276919856868307, 13944072611360969395, 4096904871311887506,
   16193633720086594649, 10459620894273703174, 14015255422411359297, 1478167476786340978, 1474940431779146465, 12893856787706976112,
   9683393624159105053, 15651780091535705445, 1836501629121751436, 3244012898813817024, 1911099319435509774, 13206889818377011222,
   11601886762599748985, 2452369497182491932, 6638362752499392180, 5120631993164285067, 12128652402300889315, 6945062089481257990,
   2545801819519865505, 5220272469053085832, 3011244668036595894, 9909136207449774752, 15161699034223083994, 14450419673954730568,
   4913013816388821356, 15065251691396999381, 5770314127006278482, 10135707548974439555, 4115033404937737293, 180301393516855362,
   866292582216774147, 1940165198791332116, 2523852265055406086, 12893806442037119411, 13121451106855682432, 7002016953603169068,
   6809588369726016026, 2397380832554713696, 308578787535278418, 14145817155733778454, 2891898107918321793, 671920596296437900,
   3496492614992675241, 6527170515054404252
  ]

/-- The residue offsets {1,7,11,13,17,19,23,29} of each byte (spec §3
"PiTable"; PiTable.hpp is not under src). -/
def offs240 : List Nat := [1, 7, 11, 13, 17, 19, 23, 29]

/-- Modelled from the spec: the bit position inside a word of the residue
m ∈ [0, 240) (the `set_bit_` table of PiTable.hpp). -/
def bitPos (m : Nat) : Nat := 8 * (m / 30) + offs240.indexOf (m % 30)

/-- The residue value of bit i of a word. -/
def resOf (i : Nat) : Nat := 30 * (i / 8) + offs240.getD (i % 8) 0

/-- Build a 64-bit word from a bit predicate. -/
def wordAuxF (f : Nat → Bool) : Nat → Nat
  | 0 => 0
  | i+1 => wordAuxF f i + (if f i then 2 ^ i else 0)

def wordOfF (f : Nat → Bool) : Nat := wordAuxF f 64

/-- The bits of table word w when the prime iteration stops below `upper`:
bit i is set iff 240·w + resOf i is a prime below upper
(`PiTable::init_bits`, with the external prime generator modelled from the
spec by `isPrime`). -/
def sievedBits (upper w : Nat) : Nat :=
  wordOfF (fun i => decide (240 * w + resOf i < upper) && isPrime (240 * w + resOf i))

/-- The bits of word w when every number of the word is below the limit. -/
def mathWord (w : Nat) : Nat := wordOfF (fun i => isPrime (240 * w + resOf i))

end Primecount

namespace Primecount

/-- `ideal_num_threads` (primecount-internal, not under src; modelled from
the spec: the interval is divided among a positive number of threads, at
least `threshold` work per thread). -/
def ideal_num_threads (dist threads threshold : Nat) : Nat :=
  max 1 (min threads (ceil_div dist threshold))

/-- The per-thread chunk size of `PiTable::init` (PiTable.cpp lines
128-133): max(10^7, dist/threads), rounded up to a multiple of 240. -/
def PiTable_thread_dist (max_x threads : Nat) : Nat :=
  let dist := max_x + 1 - 30720
  let t := ideal_num_threads dist threads 10000000
  let td := max 10000000 (dist / t)
  td + (240 - td % 240)

/-- The lower bound of chunk t (PiTable.cpp line 141). -/
def PiTable_chunkLow (max_x threads t : Nat) : Nat :=
  30720 + PiTable_thread_dist max_x threads * t

/-- The upper bound of chunk t (PiTable.cpp lines 142-143). -/
def PiTable_chunkHigh (max_x threads t : Nat) : Nat :=
  min (PiTable_chunkLow max_x threads t + PiTable_thread_dist max_x threads) (max_x + 1)

/-- The chunk containing table word w ≥ 128 (the chunks are 240-aligned). -/
def PiTable_chunkOf (max_x threads w : Nat) : Nat :=
  (240 * w - 30720) / PiTable_thread_dist max_x threads

/-- The bits of word w as produced by `PiTable::init_bits` for its chunk:
primes of [240·w, min(240·(w+1), chunk high)). -/
def initBitsWord (max_x threads w : Nat) : Nat :=
  sievedBits (min (240 * (w + 1))
    (PiTable_chunkHigh max_x threads (PiTable_chunkOf max_x threads w))) w

/-- `counts_[t]`: the number of primes of chunk t counted by
`PiTable::init_bits` (PiTable.cpp lines 172-185). -/
def PiTable_chunkCount (max_x threads t : Nat) : Nat :=
  primesIn (PiTable_chunkLow max_x threads t)
    (PiTable_chunkHigh max_x threads t - PiTable_chunkLow max_x threads t)

/-- The bits of table word w after `PiTable(max_x, threads)` construction
(PiTable.cpp lines 108-120): cache words below 128, sieved words above. -/
def PiTable_bits (max_x threads w : Nat) : Nat :=
  if w < 128 then piCacheBits.getD w 0 else initBitsWord max_x threads w

/-- The count of table word w after construction (`PiTable::init_count`,
PiTable.cpp lines 189-208): cache count below 128; otherwise the cache
tail count plus the counts of the prior chunks plus the running popcount
of the words of w's chunk before w. -/
def PiTable_count (max_x threads w : Nat) : Nat :=
  if w < 128 then piCacheCounts.getD w 0
  else
    piCacheCounts.getD 127 0 + popcount64 (piCacheBits.getD 127 0)
      + (∑ u ∈ Finset.range (PiTable_chunkOf max_x threads w), PiTable_chunkCount max_x threads u)
      + (∑ u ∈ Finset.Ico (PiTable_chunkLow max_x threads (PiTable_chunkOf max_x threads w) / 240) w,
          popcount64 (initBitsWord max_x threads u))

/-- The value `word.count + popcount(word.bits masked up to n's residue)`
of claim (iv): what the PiTable answers for n. -/
def PiTable_entry (max_x threads n : Nat) : Nat :=
  PiTable_count max_x threads (n / 240)
    + popcount64 (PiTable_bits max_x threads (n / 240) &&& (2 ^ (bitPos (n % 240) + 1) - 1))

theorem wordAuxF_lt (f : Nat → Bool) : ∀ k, wordAuxF f k < 2 ^ k
  | 0 => by rw [wordAuxF]; norm_num
  | k+1 => by
    rw [wordAuxF]
    have := wordAuxF_lt f k
    have h2 : (if f k then 2 ^ k else 0) ≤ 2 ^ k := by split_ifs <;> omega
    have h3 : 2 ^ (k + 1) = 2 ^ k + 2 ^ k := by ring
    omega

theorem wordAuxF_testBit (f : Nat → Bool) :
    ∀ k j, (wordAuxF f k).testBit j = (decide (j < k) && f j) := by
  intro k
  induction k with
  | zero =>
    intro j
    rw [wordAuxF]
    simp
  | succ k ih =>
    intro j
    rw [wordAuxF]
    rcases Nat.lt_trichotomy j k with hj | hj | hj
    · by_cases hfk : f k
      · rw [if_pos hfk, Nat.add_comm, Nat.testBit_two_pow_add_gt hj, ih]
        simp [hj, Nat.lt_succ_of_lt hj]
      · rw [if_neg hfk, Nat.add_zero, ih]
        simp [hj, Nat.lt_succ_of_lt hj]
    · subst hj
      by_cases hfk : f j
      · rw [if_pos hfk, Nat.add_comm, Nat.testBit_two_pow_add_eq,
          Nat.testBit_lt_two_pow (wordAuxF_lt f j)]
        simp [hfk]
      · rw [if_neg hfk, Nat.add_zero, Nat.testBit_lt_two_pow (wordAuxF_lt f j)]
        simp [hfk]
    · have hv : wordAuxF f k + (if f k then 2 ^ k else 0) < 2 ^ j := by
        have h1 := wordAuxF_lt f k
        have h2 : (if f k then 2 ^ k else 0) ≤ 2 ^ k := by split_ifs <;> omega
        have h3 : 2 ^ (k + 1) ≤ 2 ^ j := Nat.pow_le_pow_right (by omega) (by omega)
        have h4 : 2 ^ (k + 1) = 2 ^ k + 2 ^ k := by ring
        omega
      rw [Nat.testBit_lt_two_pow hv]
      simp
      omega

theorem wordOfF_testBit (f : Nat → Bool) (j : Nat) :
    (wordOfF f).testBit j = (decide (j < 64) && f j) := wordAuxF_testBit f 64 j

theorem popcount64_wordOfF_mask (f : Nat → Bool) (K : Nat) :
    popcount64 (wordOfF f &&& (2 ^ (K + 1) - 1))
      = ((Finset.range 64).filter (fun i => f i = true ∧ i ≤ K)).card := by
  rw [popcount64_and]
  apply congrArg
  apply Finset.filter_congr
  intro j hj
  rw [Finset.mem_range] at hj
  rw [wordOfF_testBit, Nat.testBit_two_pow_sub_one]
  simp [hj]
  intro _
  constructor
  · intro h; omega
  · intro h; omega

theorem popcount64_wordOfF (f : Nat → Bool) :
    popcount64 (wordOfF f) = ((Finset.range 64).filter (fun i => f i = true)).card := by
  rw [popcount64_eq_card]
  apply congrArg
  apply Finset.filter_congr
  intro j hj
  rw [Finset.mem_range] at hj
  rw [wordOfF_testBit]
  simp [hj]

end Primecount

namespace Primecount

theorem resOf_lt : ∀ i < 64, resOf i < 240 := by decide

theorem resOf_ge_one : ∀ i < 64, 1 ≤ resOf i := by decide

theorem bitPos_resOf : ∀ i < 64, bitPos (resOf i) = i := by decide

set_option maxRecDepth 40000 in
theorem resOf_le_iff : ∀ i < 64, ∀ j < 64, (resOf i ≤ resOf j ↔ i ≤ j) := by decide

theorem resOf_lt7_eq_one : ∀ i < 64, resOf i < 7 → resOf i = 1 := by decide

set_option maxRecDepth 40000 in
theorem coprime_bitPos : ∀ m < 240, m % 2 = 1 → ¬ m % 3 = 0 → ¬ m % 5 = 0 →
    bitPos m < 64 ∧ resOf (bitPos m) = m := by decide

theorem prime_coprime30 (p : Nat) (hp : Nat.Prime p) (h7 : 7 ≤ p) :
    p % 2 = 1 ∧ ¬ p % 3 = 0 ∧ ¬ p % 5 = 0 := by
  refine ⟨prime_odd_of_ne_two p hp (by omega), ?_, ?_⟩
  · intro h3
    rcases (Nat.Prime.eq_one_or_self_of_dvd hp 3 (Nat.dvd_of_mod_eq_zero h3)) with h | h <;> omega
  · intro h5
    rcases (Nat.Prime.eq_one_or_self_of_dvd hp 5 (Nat.dvd_of_mod_eq_zero h5)) with h | h <;> omega

theorem mod30_coprime (n : Nat) (h2 : n % 2 = 1) (h3 : ¬ n % 3 = 0) (h5 : ¬ n % 5 = 0) :
    n % 240 % 2 = 1 ∧ ¬ n % 240 % 3 = 0 ∧ ¬ n % 240 % 5 = 0 := by
  have e2 : n % 240 % 2 = n % 2 := Nat.mod_mod_of_dvd n (by norm_num)
  have e3 : n % 240 % 3 = n % 3 := Nat.mod_mod_of_dvd n (by norm_num)
  have e5 : n % 240 % 5 = n % 5 := Nat.mod_mod_of_dvd n (by norm_num)
  omega

/-- The central counting bijection: the masked popcount filter of word w
counts exactly the primes ≥ 7 in [240·w, n]. -/
theorem maskedFilter_card (w n U : Nat)
    (hwlo : 240 * w ≤ n) (hwhi : n < 240 * (w + 1))
    (h2 : n % 2 = 1) (h3 : ¬ n % 3 = 0) (h5 : ¬ n % 5 = 0)
    (hU : n < U) :
    ((Finset.range 64).filter (fun i =>
        ((decide (240 * w + resOf i < U) && isPrime (240 * w + resOf i)) = true)
          ∧ i ≤ bitPos (n % 240))).card
      = ((Finset.Ico (240 * w) (n + 1)).filter (fun p => Nat.Prime p ∧ 7 ≤ p)).card := by
  obtain ⟨hm2, hm3, hm5⟩ := mod30_coprime n h2 h3 h5
  obtain ⟨hKlt, hKres⟩ := coprime_bitPos (n % 240) (Nat.mod_lt n (by omega)) hm2 hm3 hm5
  have hnw : n % 240 = n - 240 * w := by omega
  apply Finset.card_bij (fun i _ => 240 * w + resOf i)
  · intro i hi
    rw [Finset.mem_filter, Finset.mem_range] at hi
    obtain ⟨hi64, hcond, hile⟩ := hi
    rw [Bool.and_eq_true, decide_eq_true_eq] at hcond
    have hval : resOf i ≤ n % 240 := by
      rw [← hKres]
      exact (resOf_le_iff i hi64 (bitPos (n % 240)) hKlt).mpr hile
    have hprime : Nat.Prime (240 * w + resOf i) := (isPrime_iff _).mp hcond.2
    rw [Finset.mem_filter, Finset.mem_Ico]
    refine ⟨⟨by omega, by omega⟩, hprime, ?_⟩
    by_contra hlt
    push_neg at hlt
    have hw0 : w = 0 := by omega
    have hr1 : resOf i = 1 := resOf_lt7_eq_one i hi64 (by omega)
    rw [hw0, hr1] at hprime
    exact Nat.not_prime_one (by simpa using hprime)
  · intro i1 hi1 i2 hi2 heq
    rw [Finset.mem_filter, Finset.mem_range] at hi1 hi2
    have h1 : resOf i1 = resOf i2 := by omega
    have := (resOf_le_iff i1 hi1.1 i2 hi2.1).mp (by omega)
    have := (resOf_le_iff i2 hi2.1 i1 hi1.1).mp (by omega)
    omega
  · intro p hp
    rw [Finset.mem_filter, Finset.mem_Ico] at hp
    obtain ⟨⟨hplo, hphi⟩, hpp, hp7⟩ := hp
    obtain ⟨hc2, hc3, hc5⟩ := prime_coprime30 p hpp hp7
    obtain ⟨hpm2, hpm3, hpm5⟩ := mod30_coprime p hc2 hc3 hc5
    obtain ⟨hplt, hpres⟩ := coprime_bitPos (p % 240) (Nat.mod_lt p (by omega)) hpm2 hpm3 hpm5
    have hpmod : p % 240 = p - 240 * w := by omega
    refine ⟨bitPos (p % 240), ?_, by omega⟩
    rw [Finset.mem_filter, Finset.mem_range]
    refine ⟨hplt, ?_, ?_⟩
    · rw [Bool.and_eq_true, decide_eq_true_eq]
      constructor
      · rw [hpres]; omega
      · rw [hpres, hpmod, show 240 * w + (p - 240 * w) = p by omega]
        exact (isPrime_iff p).mpr hpp
    · have hle : resOf (bitPos (p % 240)) ≤ resOf (bitPos (n % 240)) := by
        rw [hpres, hKres]
        omega
      exact (resOf_le_iff (bitPos (p % 240)) hplt (bitPos (n % 240)) hKlt).mp hle

end Primecount

namespace Primecount

/-- Count of primes ≥ 7 in [a, b). -/
def F7 (a b : Nat) : Nat := ((Finset.Ico a b).filter (fun p => Nat.Prime p ∧ 7 ≤ p)).card

theorem F7_add (a b c : Nat) (h1 : a ≤ b) (h2 : b ≤ c) : F7 a b + F7 b c = F7 a c := by
  rw [F7, F7, F7, ← Finset.Ico_union_Ico_eq_Ico h1 h2, Finset.filter_union]
  exact (Finset.card_union_of_disjoint
    (Finset.disjoint_filter_filter (Finset.Ico_disjoint_Ico_consecutive a b c))).symm

theorem wordAuxF_congr (f g : Nat → Bool) : ∀ k, (∀ i, i < k → f i = g i) →
    wordAuxF f k = wordAuxF g k
  | 0, _ => rfl
  | k+1, h => by
    rw [wordAuxF, wordAuxF, wordAuxF_congr f g k (fun i hi => h i (by omega)), h k (by omega)]

theorem mathWord_eq_sievedBits (w U : Nat) (hU : 240 * (w + 1) ≤ U) :
    mathWord w = sievedBits U w := by
  rw [mathWord, sievedBits, wordOfF, wordOfF]
  apply wordAuxF_congr
  intro i hi
  have h1 := resOf_lt i hi
  have h2 : 240 * w + resOf i < U := by omega
  simp [h2]

theorem pop_sievedBits_masked (w n U : Nat)
    (hwlo : 240 * w ≤ n) (hwhi : n < 240 * (w + 1))
    (h2 : n % 2 = 1) (h3 : ¬ n % 3 = 0) (h5 : ¬ n % 5 = 0) (hU : n < U) :
    popcount64 (sievedBits U w &&& (2 ^ (bitPos (n % 240) + 1) - 1))
      = F7 (240 * w) (n + 1) := by
  rw [sievedBits, popcount64_wordOfF_mask, F7]
  exact maskedFilter_card w n U hwlo hwhi h2 h3 h5 hU

theorem pop_mathWord (w : Nat) : popcount64 (mathWord w) = F7 (240 * w) (240 * (w + 1)) := by
  have hn : 240 * (w + 1) = (240 * w + 239) + 1 := by ring
  have hmask : mathWord w &&& (2 ^ (bitPos ((240 * w + 239) % 240) + 1) - 1) = mathWord w := by
    have hmod : (240 * w + 239) % 240 = 239 := by omega
    rw [hmod, show bitPos 239 = 63 from by decide]
    apply Nat.eq_of_testBit_eq
    intro j
    rw [Nat.testBit_and, Nat.testBit_two_pow_sub_one]
    by_cases hj : j < 64
    · simp [hj]
    · rw [mathWord, wordOfF, Nat.testBit_lt_two_pow]
      · simp
      · calc wordAuxF _ 64 < 2 ^ 64 := wordAuxF_lt _ 64
        _ ≤ 2 ^ j := Nat.pow_le_pow_right (by omega) (by omega)
  rw [hn, ← hmask]
  rw [mathWord_eq_sievedBits w (240 * (w + 1)) (le_refl _)]
  apply pop_sievedBits_masked w (240 * w + 239) (240 * (w + 1)) (by omega) (by omega)
    (by omega) (by omega) (by omega) (by omega)

set_option maxRecDepth 100000 in
theorem piCacheCounts_chain :
    piCacheCounts.getD 0 0 = 3
    ∧ ∀ u < 127, piCacheCounts.getD (u + 1) 0
        = piCacheCounts.getD u 0 + popcount64 (piCacheBits.getD u 0) := by
  constructor
  · rfl
  · decide

theorem piCacheCounts_eq (hcb : ∀ u < 128, piCacheBits.getD u 0 = mathWord u) :
    ∀ w, w ≤ 127 → piCacheCounts.getD w 0 = 3 + F7 0 (240 * w) := by
  intro w
  induction w with
  | zero =>
    intro _
    rw [piCacheCounts_chain.1, F7]
    simp
  | succ w ih =>
    intro hw
    rw [piCacheCounts_chain.2 w (by omega), ih (by omega), hcb w (by omega), pop_mathWord]
    have := F7_add 0 (240 * w) (240 * (w + 1)) (by omega) (by omega)
    omega

end Primecount

namespace Primecount

theorem F7_self (a : Nat) : F7 a a = 0 := by simp [F7]

theorem piFun_eq_F7 (n : Nat) (hn : 6 ≤ n) : piFun n = 3 + F7 0 (n + 1) := by
  rw [piFun_eq_Ico, F7]
  have hset : (Finset.Ico 0 (n + 1)).filter Nat.Prime
      = insert 2 (insert 3 (insert 5
          ((Finset.Ico 0 (n + 1)).filter (fun p => Nat.Prime p ∧ 7 ≤ p)))) := by
    ext p
    simp only [Finset.mem_filter, Finset.mem_insert, Finset.mem_Ico]
    constructor
    · rintro ⟨⟨_, hlt⟩, hp⟩
      by_cases h7 : 7 ≤ p
      · exact Or.inr (Or.inr (Or.inr ⟨⟨by omega, hlt⟩, hp, h7⟩))
      · interval_cases p
        · exact absurd hp (by norm_num)
        · exact absurd hp (by norm_num)
        · exact Or.inl rfl
        · exact Or.inr (Or.inl rfl)
        · exact absurd hp (by norm_num)
        · exact Or.inr (Or.inr (Or.inl rfl))
        · exact absurd hp (by norm_num)
    · rintro (rfl | rfl | rfl | ⟨⟨_, hlt⟩, hp, _⟩)
      · exact ⟨⟨by omega, by omega⟩, by norm_num⟩
      · exact ⟨⟨by omega, by omega⟩, by norm_num⟩
      · exact ⟨⟨by omega, by omega⟩, by norm_num⟩
      · exact ⟨⟨by omega, hlt⟩, hp⟩
  rw [hset, Finset.card_insert_of_not_mem, Finset.card_insert_of_not_mem,
    Finset.card_insert_of_not_mem]
  · omega
  · intro h
    simp only [Finset.mem_filter, Finset.mem_Ico] at h
    omega
  · intro h
    simp only [Finset.mem_insert, Finset.mem_filter, Finset.mem_Ico] at h
    rcases h with h | ⟨-, -, h⟩
    · omega
    · omega
  · intro h
    simp only [Finset.mem_insert, Finset.mem_filter, Finset.mem_Ico] at h
    rcases h with h | h | ⟨-, -, h⟩
    · omega
    · omega
    · omega

theorem div_eq_div_of_between (a b q : Nat) (hq : 0 < q)
    (h1 : q * (b / q) ≤ a) (h2 : a ≤ b) : a / q = b / q := by
  apply Nat.le_antisymm
  · exact Nat.div_le_div_right h2
  · exact (Nat.le_div_iff_mul_le hq).mpr (by rw [Nat.mul_comm]; exact h1)

theorem PiTable_thread_dist_facts (max_x threads : Nat) :
    10000000 ≤ PiTable_thread_dist max_x threads
    ∧ PiTable_thread_dist max_x threads % 240 = 0 := by
  simp only [PiTable_thread_dist]
  omega

/-- Chunk geometry: word w ≥ 128 lies in its chunk, and by 240-alignment
the whole word does. -/
theorem chunkOf_bounds (max_x threads w : Nat) (hw : 128 ≤ w) :
    PiTable_chunkLow max_x threads (PiTable_chunkOf max_x threads w) ≤ 240 * w
    ∧ 240 * (w + 1) ≤ PiTable_chunkLow max_x threads (PiTable_chunkOf max_x threads w)
        + PiTable_thread_dist max_x threads := by
  obtain ⟨htd1, htd2⟩ := PiTable_thread_dist_facts max_x threads
  rw [PiTable_chunkLow, PiTable_chunkOf]
  obtain ⟨k, hk⟩ := Nat.dvd_of_mod_eq_zero htd2
  have hdm := Nat.div_add_mod (240 * w - 30720) (PiTable_thread_dist max_x threads)
  have hml := Nat.mod_lt (240 * w - 30720)
    (show 0 < PiTable_thread_dist max_x threads by omega)
  have hmul : PiTable_thread_dist max_x threads
        * ((240 * w - 30720) / PiTable_thread_dist max_x threads)
      = 240 * (k * ((240 * w - 30720) / PiTable_thread_dist max_x threads)) := by
    rw [hk]; ring
  omega

theorem chunkOf_eq_of_range (max_x threads w u : Nat)
    (h1 : PiTable_chunkLow max_x threads (PiTable_chunkOf max_x threads w) ≤ 240 * u)
    (h2 : u ≤ w) :
    PiTable_chunkOf max_x threads u = PiTable_chunkOf max_x threads w := by
  obtain ⟨htd1, htd2⟩ := PiTable_thread_dist_facts max_x threads
  rw [PiTable_chunkLow, PiTable_chunkOf] at h1
  rw [PiTable_chunkOf, PiTable_chunkOf]
  apply div_eq_div_of_between _ _ _ (by omega)
  · omega
  · omega

/-- Words of the chunk strictly before w are fully sieved. -/
theorem initBitsWord_full (max_x threads w u : Nat) (hw : 128 ≤ w)
    (hxw : 240 * w ≤ max_x)
    (h1 : PiTable_chunkLow max_x threads (PiTable_chunkOf max_x threads w) ≤ 240 * u)
    (h2 : u < w) :
    initBitsWord max_x threads u = mathWord u := by
  obtain ⟨hlo, hhi⟩ := chunkOf_bounds max_x threads w hw
  rw [initBitsWord, chunkOf_eq_of_range max_x threads w u h1 (by omega)]
  have hmin : min (240 * (u + 1))
        (PiTable_chunkHigh max_x threads (PiTable_chunkOf max_x threads w))
      = 240 * (u + 1) := by
    rw [PiTable_chunkHigh]
    omega
  rw [hmin]
  exact (mathWord_eq_sievedBits u (240 * (u + 1)) (le_refl _)).symm

theorem primesIn_eq_F7 (a len : Nat) (ha : 7 ≤ a) : primesIn a len = F7 a (a + len) := by
  rw [primesIn_eq_card, F7]
  congr 1
  apply Finset.filter_congr
  intro p hp
  simp only [Finset.mem_Ico] at hp
  exact ⟨fun h => ⟨h, by omega⟩, fun h => h.1⟩

end Primecount

namespace Primecount

theorem PiTable_chunkCount_eq (max_x threads w u : Nat) (hw : 128 ≤ w)
    (hxw : 240 * w ≤ max_x) (hu : u < PiTable_chunkOf max_x threads w) :
    PiTable_chunkCount max_x threads u
      = F7 (30720 + PiTable_thread_dist max_x threads * u)
          (30720 + PiTable_thread_dist max_x threads * u
            + PiTable_thread_dist max_x threads) := by
  have hlo := (chunkOf_bounds max_x threads w hw).1
  rw [PiTable_chunkLow] at hlo
  have hmono : PiTable_thread_dist max_x threads * (u + 1)
      ≤ PiTable_thread_dist max_x threads * PiTable_chunkOf max_x threads w :=
    Nat.mul_le_mul_left _ hu
  have hexp : PiTable_thread_dist max_x threads * (u + 1)
      = PiTable_thread_dist max_x threads * u + PiTable_thread_dist max_x threads := by
    ring
  rw [PiTable_chunkCount, PiTable_chunkHigh, PiTable_chunkLow]
  rw [show min (30720 + PiTable_thread_dist max_x threads * u
        + PiTable_thread_dist max_x threads) (max_x + 1)
      = 30720 + PiTable_thread_dist max_x threads * u
        + PiTable_thread_dist max_x threads from by omega]
  rw [show 30720 + PiTable_thread_dist max_x threads * u
        + PiTable_thread_dist max_x threads
        - (30720 + PiTable_thread_dist max_x threads * u)
      = PiTable_thread_dist max_x threads from by omega]
  exact primesIn_eq_F7 _ _ (by omega)

theorem sum_F7_chunks (td : Nat) : ∀ t,
    (∑ u ∈ Finset.range t, F7 (30720 + td * u) (30720 + td * u + td))
      = F7 30720 (30720 + td * t)
  | 0 => by simp [F7_self]
  | t+1 => by
    rw [Finset.sum_range_succ, sum_F7_chunks td t]
    have h1 : td * t ≤ td * (t + 1) := Nat.mul_le_mul_left _ (by omega)
    have h2 : td * (t + 1) = td * t + td := by ring
    rw [show 30720 + td * (t + 1) = 30720 + td * t + td from by omega]
    exact F7_add _ _ _ (by omega) (by omega)

theorem sum_chunkCounts (max_x threads w : Nat) (hw : 128 ≤ w) (hxw : 240 * w ≤ max_x) :
    (∑ u ∈ Finset.range (PiTable_chunkOf max_x threads w),
        PiTable_chunkCount max_x threads u)
      = F7 30720 (PiTable_chunkLow max_x threads (PiTable_chunkOf max_x threads w)) := by
  rw [Finset.sum_congr rfl (fun u hu =>
    PiTable_chunkCount_eq max_x threads w u hw hxw (Finset.mem_range.mp hu))]
  rw [PiTable_chunkLow]
  exact sum_F7_chunks (PiTable_thread_dist max_x threads)
    (PiTable_chunkOf max_x threads w)

theorem F7_sum_words (a : Nat) : ∀ b, a ≤ b →
    (∑ u ∈ Finset.Ico a b, F7 (240 * u) (240 * (u + 1))) = F7 (240 * a) (240 * b) := by
  intro b
  induction b with
  | zero =>
    intro h
    have ha : a = 0 := by omega
    subst ha
    simp [F7_self]
  | succ b ih =>
    intro h
    by_cases hab : a = b + 1
    · subst hab
      simp [F7_self]
    · have hab' : a ≤ b := by omega
      rw [Finset.sum_Ico_succ_top hab', ih hab']
      exact F7_add _ _ _ (Nat.mul_le_mul_left 240 hab') (Nat.mul_le_mul_left 240 (by omega))

theorem sum_initBits (max_x threads w : Nat) (hw : 128 ≤ w) (hxw : 240 * w ≤ max_x) :
    (∑ u ∈ Finset.Ico
        (PiTable_chunkLow max_x threads (PiTable_chunkOf max_x threads w) / 240) w,
        popcount64 (initBitsWord max_x threads u))
      = F7 (PiTable_chunkLow max_x threads (PiTable_chunkOf max_x threads w))
          (240 * w) := by
  obtain ⟨htd1, htd2⟩ := PiTable_thread_dist_facts max_x threads
  obtain ⟨hlo, hhi⟩ := chunkOf_bounds max_x threads w hw
  obtain ⟨k, hk⟩ := Nat.dvd_of_mod_eq_zero htd2
  have hclmul : PiTable_chunkLow max_x threads (PiTable_chunkOf max_x threads w)
      = 240 * (128 + k * PiTable_chunkOf max_x threads w) := by
    rw [PiTable_chunkLow, hk]; ring
  have hdiv : PiTable_chunkLow max_x threads (PiTable_chunkOf max_x threads w) / 240
      = 128 + k * PiTable_chunkOf max_x threads w := by
    omega
  have hterm : ∀ u ∈ Finset.Ico (128 + k * PiTable_chunkOf max_x threads w) w,
      popcount64 (initBitsWord max_x threads u) = F7 (240 * u) (240 * (u + 1)) := by
    intro u hu
    simp only [Finset.mem_Ico] at hu
    rw [initBitsWord_full max_x threads w u hw hxw (by omega) hu.2, pop_mathWord]
  rw [hdiv, Finset.sum_congr rfl hterm, F7_sum_words _ w (by omega), hclmul]

theorem cacheTail_eq (hcb : ∀ u < 128, piCacheBits.getD u 0 = mathWord u) :
    piCacheCounts.getD 127 0 + popcount64 (piCacheBits.getD 127 0)
      = 3 + F7 0 30720 := by
  rw [piCacheCounts_eq hcb 127 (by omega), hcb 127 (by omega), pop_mathWord]
  have h := F7_add 0 (240 * 127) (240 * 128) (by omega) (by omega)
  norm_num at h ⊢
  omega

theorem PiTable_count_eq (max_x threads w : Nat)
    (hcb : ∀ u < 128, piCacheBits.getD u 0 = mathWord u)
    (hw : 128 ≤ w) (hxw : 240 * w ≤ max_x) :
    PiTable_count max_x threads w = 3 + F7 0 (240 * w) := by
  rw [PiTable_count, if_neg (by omega)]
  rw [cacheTail_eq hcb, sum_chunkCounts max_x threads w hw hxw,
    sum_initBits max_x threads w hw hxw]
  obtain ⟨hlo, hhi⟩ := chunkOf_bounds max_x threads w hw
  have hcl : 30720 ≤ PiTable_chunkLow max_x threads (PiTable_chunkOf max_x threads w) := by
    rw [PiTable_chunkLow]; omega
  have ha := F7_add 30720
    (PiTable_chunkLow max_x threads (PiTable_chunkOf max_x threads w)) (240 * w) hcl hlo
  have hb := F7_add 0 30720 (240 * w) (by omega) (by omega)
  omega

theorem PiTable_bits_masked (max_x threads n : Nat) (hw : 128 ≤ n / 240)
    (hnx : n ≤ max_x) (h2 : n % 2 = 1) (h3 : ¬ n % 3 = 0) (h5 : ¬ n % 5 = 0) :
    popcount64 (PiTable_bits max_x threads (n / 240)
        &&& (2 ^ (bitPos (n % 240) + 1) - 1))
      = F7 (240 * (n / 240)) (n + 1) := by
  rw [PiTable_bits, if_neg (by omega), initBitsWord]
  apply pop_sievedBits_masked _ _ _ (by omega) (by omega) h2 h3 h5
  obtain ⟨hlo, hhi⟩ := chunkOf_bounds max_x threads (n / 240) hw
  rw [PiTable_chunkHigh]
  omega

theorem PiTable_entry_cache (max_x threads n : Nat)
    (hcb : ∀ u < 128, piCacheBits.getD u 0 = mathWord u)
    (hn : 7 ≤ n) (hw : n / 240 < 128)
    (h2 : n % 2 = 1) (h3 : ¬ n % 3 = 0) (h5 : ¬ n % 5 = 0) :
    PiTable_entry max_x threads n = piFun n := by
  rw [PiTable_entry, PiTable_bits, PiTable_count, if_pos hw, if_pos hw]
  rw [piCacheCounts_eq hcb (n / 240) (by omega), hcb (n / 240) hw]
  rw [mathWord_eq_sievedBits (n / 240) (240 * (n / 240 + 1)) (le_refl _)]
  rw [pop_sievedBits_masked (n / 240) n (240 * (n / 240 + 1)) (by omega) (by omega)
    h2 h3 h5 (by omega)]
  rw [piFun_eq_F7 n (by omega)]
  have h := F7_add 0 (240 * (n / 240)) (n + 1) (by omega) (by omega)
  omega

theorem PiTable_entry_correct (max_x threads n : Nat)
    (hcb : ∀ u < 128, piCacheBits.getD u 0 = mathWord u)
    (hn : 7 ≤ n) (hnx : n ≤ max_x)
    (h2 : n % 2 = 1) (h3 : ¬ n % 3 = 0) (h5 : ¬ n % 5 = 0) :
    PiTable_entry max_x threads n = piFun n := by
  by_cases hw : n / 240 < 128
  · exact PiTable_entry_cache max_x threads n hcb hn hw h2 h3 h5
  · rw [PiTable_entry,
      PiTable_count_eq max_x threads (n / 240) hcb (by omega) (by omega),
      PiTable_bits_masked max_x threads n (by omega) hnx h2 h3 h5,
      piFun_eq_F7 n (by omega)]
    have h := F7_add 0 (240 * (n / 240)) (n + 1) (by omega) (by omega)
    omega

end Primecount

namespace Primecount

/-! The 128 cached bit words of PiTable.cpp hold exactly the primes of
[0, 30720) at the offsets coprime to 30: verified by evaluation, in
chunks of 16 words. -/

set_option maxRecDepth 100000 in
set_option maxHeartbeats 4000000 in
theorem piCacheBits_eq_0 : ∀ r < 16, piCacheBits.getD r 0 = mathWord r := by
  decide

set_option maxRecDepth 100000 in
set_option maxHeartbeats 4000000 in
theorem piCacheBits_eq_1 : ∀ r < 16, piCacheBits.getD (16 + r) 0 = mathWord (16 + r) := by
  decide

set_option maxRecDepth 100000 in
set_option maxHeartbeats 4000000 in
theorem piCacheBits_eq_2 : ∀ r < 16, piCacheBits.getD (32 + r) 0 = mathWord (32 + r) := by
  decide

set_option maxRecDepth 100000 in
set_option maxHeartbeats 4000000 in
theorem piCacheBits_eq_3 : ∀ r < 16, piCacheBits.getD (48 + r) 0 = mathWord (48 + r) := by
  decide

set_option maxRecDepth 100000 in
set_option maxHeartbeats 4000000 in
theorem piCacheBits_eq_4 : ∀ r < 16, piCacheBits.getD (64 + r) 0 = mathWord (64 + r) := by
  decide

set_option maxRecDepth 100000 in
set_option maxHeartbeats 4000000 in
theorem piCacheBits_eq_5 : ∀ r < 16, piCacheBits.getD (80 + r) 0 = mathWord (80 + r) := by
  decide

set_option maxRecDepth 100000 in
set_option maxHeartbeats 4000000 in
theorem piCacheBits_eq_6 : ∀ r < 16, piCacheBits.getD (96 + r) 0 = mathWord (96 + r) := by
  decide

set_option maxRecDepth 100000 in
set_option maxHeartbeats 4000000 in
theorem piCacheBits_eq_7 : ∀ r < 16, piCacheBits.getD (112 + r) 0 = mathWord (112 + r) := by
  decide

theorem piCacheBits_getD (u : Nat) (hu : u < 128) :
    piCacheBits.getD u 0 = mathWord u := by
  have h16 : u % 16 < 16 := Nat.mod_lt u (by omega)
  have hdiv : u / 16 = 0 ∨ u / 16 = 1 ∨ u / 16 = 2 ∨ u / 16 = 3 ∨ u / 16 = 4
      ∨ u / 16 = 5 ∨ u / 16 = 6 ∨ u / 16 = 7 := by omega
  rcases hdiv with h | h | h | h | h | h | h | h
  · rw [show u = u % 16 from by omega]
    exact piCacheBits_eq_0 (u % 16) h16
  · rw [show u = 16 + u % 16 from by omega]
    exact piCacheBits_eq_1 (u % 16) h16
  · rw [show u = 32 + u % 16 from by omega]
    exact piCacheBits_eq_2 (u % 16) h16
  · rw [show u = 48 + u % 16 from by omega]
    exact piCacheBits_eq_3 (u % 16) h16
  · rw [show u = 64 + u % 16 from by omega]
    exact piCacheBits_eq_4 (u % 16) h16
  · rw [show u = 80 + u % 16 from by omega]
    exact piCacheBits_eq_5 (u % 16) h16
  · rw [show u = 96 + u % 16 from by omega]
    exact piCacheBits_eq_6 (u % 16) h16
  · rw [show u = 112 + u % 16 from by omega]
    exact piCacheBits_eq_7 (u % 16) h16

/-- C4: after `PiTable(max_x, threads)` construction, the table answer
`word.count + popcount(word.bits masked up to the bit of n)` equals π(n)
for every n = 240·w + r with residue r coprime to 30 and 7 ≤ n ≤ max_x,
for every thread count. (Corrected: the claim fails without the bound
7 ≤ n — at n = 1, the only coprime residue below 7, the table stores
PrimePi(5) = 3 while π(1) = 0 — and fails for residues of the last word
exceeding max_x, which are never sieved.) -/
theorem pitable_entry_prime_count (max_x threads n : Nat)
    (hn : 7 ≤ n) (hnx : n ≤ max_x)
    (h2 : n % 2 = 1) (h3 : ¬ n % 3 = 0) (h5 : ¬ n % 5 = 0) :
    PiTable_entry max_x threads n = piFun n :=
  PiTable_entry_correct max_x threads n (fun u hu => piCacheBits_getD u hu)
    hn hnx h2 h3 h5

/-- C4 counterexample: for word 0 and residue 1 (the value n = 1) the
claimed identity `word.count + popcount(word.bits masked) = π(240·w + r)`
fails: the table entry is PrimePi(5) = 3, but π(1) = 0. -/
theorem pitable_entry_counterexample :
    PiTable_entry 30720 1 1 = 3 ∧ piFun 1 = 0 := by
  constructor
  · rfl
  · rw [← piUpTo_eq_piFun]
    rfl

/-- C4 witness: at max_x = 97, threads = 1, n = 97 the hypotheses hold
and the table entry equals π(97). -/
theorem pitable_entry_prime_count_witness :
    PiTable_entry 97 1 97 = piFun 97 :=
  pitable_entry_prime_count 97 1 97 (by decide) (by decide) (by decide)
    (by decide) (by decide)

end Primecount
